import Mathlib

/-!
Verification of the category/class-ID reconciliation logic of the
normalize-carpart-annotations repository.

Shallow embedding of:
 - `src/normalize_annotations.py` (COCO-style category reconciler):
   `load_standard_categories`, `normalize_annotation_file`;
 - `src/normalize_annotations_yolo.py` (YOLO-style class-ID reconciler):
   `load_reference_mapping`, `create_class_id_mapping`, `normalize_data_yaml`,
   `normalize_label_file`, `normalize_dataset`.

Modelling conventions:
 - Python strings are lists of characters (`Str := List Char`); file contents
   are such lists.  File I/O is explicit state passing: each function receives
   the current on-disk content and returns the content after the call (an
   `Option` where the file may be absent).
 - Python dicts are association lists in insertion order; `dinsert` overwrites
   the value of an existing key in place (keeping its position) and appends a
   new key at the end, exactly like CPython dicts.  `dlookup` returns the value
   of the unique occurrence of a key.
 - `int(...)` on a token is modelled over ASCII decimal digits with Python's
   underscore rule (single underscores between digits); `str(int)` prints a
   minus sign followed by the decimal digits of the absolute value.
 - JSON / YAML documents are structures over the fields the code touches, with
   an opaque `Nat` standing for the untouched remainder.
 - Logging is a side effect; where a claim refers to what the code reports via
   `logger.warning`, the logged pairs are computed by a sibling definition
   (`class_id_warnings`) performing the same traversal as the source loop.
-/

set_option maxHeartbeats 1000000

namespace CarPart

/-- Strings as lists of characters. -/
abbrev Str := List Char

/-- The whitespace characters Python's default `str.strip` / `str.split`
recognise (ASCII fragment; the label files are ASCII apart from class names,
which never reach `split`). -/
def isspace (c : Char) : Bool :=
  c = ' ' || c = '\t' || c = '\n' || c = '\r' || c = '\x0b' || c = '\x0c'

/-- Python `str.strip()`: drop leading and trailing whitespace. -/
def pystrip (s : Str) : Str :=
  ((s.dropWhile isspace).reverse.dropWhile isspace).reverse

/-- Helper for `pysplit`: the current (reversed) token is accumulated in `tok`. -/
def pysplitAux : Str → Str → List Str
  | [], tok => if tok.isEmpty then [] else [tok.reverse]
  | c :: rest, tok =>
    if isspace c then
      if tok.isEmpty then pysplitAux rest [] else tok.reverse :: pysplitAux rest []
    else pysplitAux rest (c :: tok)

/-- Python `str.split()` with no argument: split on runs of whitespace,
discarding empty pieces. -/
def pysplit (s : Str) : List Str := pysplitAux s []

/-- Python `' '.join(parts)`. -/
def pyjoin : List Str → Str
  | [] => []
  | [t] => t
  | t :: u :: ts => t ++ ' ' :: pyjoin (u :: ts)

/-- Helper for `pyreadlines`: the current (reversed) line is accumulated. -/
def readlinesAux : Str → Str → List Str
  | [], acc => if acc.isEmpty then [] else [acc.reverse]
  | c :: rest, acc =>
    if c = '\n' then (acc.reverse ++ ['\n']) :: readlinesAux rest []
    else readlinesAux rest (c :: acc)

/-- Python `f.readlines()` on text content: pieces ending in a newline, plus a
final unterminated piece when the content does not end in a newline. -/
def pyreadlines (s : Str) : List Str := readlinesAux s []

/-- Python `'\n'.join(lines)`. -/
def joinNL : List Str → Str
  | [] => []
  | [t] => t
  | t :: u :: ts => t ++ '\n' :: joinNL (u :: ts)

/-- The content `normalize_label_file` writes: `'\n'.join(new_lines)` followed
by a final `'\n'` exactly when `new_lines` is nonempty (source lines 199-203). -/
def renderLines (ls : List Str) : Str :=
  joinNL ls ++ (if ls.isEmpty then [] else ['\n'])

/-- Decimal digit character of `d < 10` (`'9'` as a safe default above). -/
def digitChar (d : Nat) : Char :=
  if d = 0 then '0' else if d = 1 then '1' else if d = 2 then '2'
  else if d = 3 then '3' else if d = 4 then '4' else if d = 5 then '5'
  else if d = 6 then '6' else if d = 7 then '7' else if d = 8 then '8' else '9'

/-- Digits of `n` in front of `acc`, with structural fuel (the fuel never runs
out when it starts at `n`, since a number has at most as many division steps
as its value). -/
def natToStrGo : Nat → Nat → Str → Str
  | 0, n, acc => digitChar n :: acc
  | fuel + 1, n, acc =>
    if n < 10 then digitChar n :: acc
    else natToStrGo fuel (n / 10) (digitChar (n % 10) :: acc)

/-- Digits of `n` in front of `acc`. -/
def natToStrAux (n : Nat) (acc : Str) : Str := natToStrGo n n acc

/-- Decimal representation of a natural number. -/
def natToStr (n : Nat) : Str := natToStrAux n []

/-- Python `str(i)` for an `int`: a minus sign (for negatives) followed by the
decimal digits of the absolute value. -/
def intToStr (i : Int) : Str :=
  if i < 0 then '-' :: natToStr i.natAbs else natToStr i.toNat

/-- Whether `c` is an ASCII decimal digit. -/
def isDigit (c : Char) : Bool := decide ('0' ≤ c ∧ c ≤ '9')

/-- Value of an ASCII decimal digit character (garbage on non-digits). -/
def digitValD (c : Char) : Nat := c.toNat - 48

/-- Value of an ASCII decimal digit character. -/
def digitVal (c : Char) : Option Nat :=
  if isDigit c then some (digitValD c) else none

/-- Numeric value of a digit string (used to state parsing lemmas). -/
def dfold (a : Nat) (ds : Str) : Nat :=
  ds.foldl (fun x c => x * 10 + ((digitVal c).getD 0)) a

/-- Digits after the first one, with Python's underscore rule: a single
underscore may stand between two digits, nowhere else. -/
def parseUDigits : Str → Nat → Option Nat
  | [], a => some a
  | c :: rest, a =>
    if isDigit c then parseUDigits rest (a * 10 + digitValD c)
    else if c = '_' then
      match rest with
      | c2 :: rest2 =>
        if isDigit c2 then parseUDigits rest2 (a * 10 + digitValD c2) else none
      | [] => none
    else none

/-- A nonempty all-digit (with underscores) string as a natural number. -/
def parseNat : Str → Option Nat
  | [] => none
  | c :: rest => if isDigit c then parseUDigits rest (digitValD c) else none

/-- Sign handling of Python `int(s)`: an optional sign, then decimal digits. -/
def pyParseIntCore : Str → Option Int
  | [] => none
  | c :: rest =>
    if c = '+' then (parseNat rest).map Int.ofNat
    else if c = '-' then (parseNat rest).map (fun n => -Int.ofNat n)
    else (parseNat (c :: rest)).map Int.ofNat

/-- Python `int(s)` on a token: optional surrounding whitespace, an optional
sign, then decimal digits; `none` models the `ValueError` branch. -/
def pyParseInt (s : Str) : Option Int :=
  pyParseIntCore (pystrip s)

/-- CPython dict insertion: overwrite the value of an existing key in place,
append a new key at the end. -/
def dinsert {κ ν : Type} [DecidableEq κ] (k : κ) (v : ν) : List (κ × ν) → List (κ × ν)
  | [] => [(k, v)]
  | (a, b) :: rest => if a = k then (k, v) :: rest else (a, b) :: dinsert k v rest

/-- Dict lookup: the value at the first (for a dict: the only) occurrence of a key. -/
def dlookup {κ ν : Type} [DecidableEq κ] (k : κ) : List (κ × ν) → Option ν
  | [] => none
  | (a, b) :: rest => if a = k then some b else dlookup k rest

/-- The keys of a dict, in order. -/
def dkeys {κ ν : Type} (d : List (κ × ν)) : List κ := d.map Prod.fst

/-- `dict.values()`, in order. -/
def dvalues {κ ν : Type} (d : List (κ × ν)) : List ν := d.map Prod.snd

/-! ## COCO-style reconciler (`src/normalize_annotations.py`) -/

/-- A COCO category record `{id, name}` (other fields opaque to the code). -/
structure Category where
  id : Int
  name : Str
deriving DecidableEq, Repr

/-- One record of the `annotations` list: the code reads and writes only
`category_id` (absent when the Python dict lacks the key); `payload` stands
for every other field, untouched. -/
structure AnnRec where
  category_id : Option Int
  payload : Nat
deriving DecidableEq, Repr

/-- The parsed annotation document: `categories` / `annotations` are `none`
when the JSON object lacks the key; `rest` stands for all other keys. -/
structure AnnDoc where
  categories : Option (List Category)
  annotations : Option (List AnnRec)
  rest : Nat
deriving DecidableEq, Repr

/-- The statistics record `normalize_annotation_file` returns (the `file` path
entry is omitted). -/
structure CocoStats where
  categories_found : Nat
  categories_normalized : Nat
  annotations_updated : Nat
  unmapped_categories : List (Int × Str)
deriving DecidableEq, Repr

/-- `load_standard_categories` (lines 15-27): a dict from trimmed name to the
category record, built in file order. -/
def load_standard_categories (cats : List Category) : List (Str × Category) :=
  cats.foldl (fun m c => dinsert (pystrip c.name) c m) []

/-- Loop body of lines 74-91: extend `(old_to_new_id, categories_normalized,
unmapped_categories)` by one locally declared category. -/
def cocoStep (std : List (Str × Category))
    (acc : List (Int × Int) × Nat × List (Int × Str)) (c : Category) :
    List (Int × Int) × Nat × List (Int × Str) :=
  let old_name := pystrip c.name
  match dlookup old_name std with
  | some stdc => (dinsert c.id stdc.id acc.1, acc.2.1 + 1, acc.2.2)
  | none => (dinsert c.id c.id acc.1, acc.2.1, acc.2.2 ++ [(c.id, old_name)])

/-- The whole loop of lines 74-91. -/
def cocoBuild (std : List (Str × Category)) (cats : List Category) :
    List (Int × Int) × Nat × List (Int × Str) :=
  cats.foldl (cocoStep std) ([], 0, [])

/-- Stable insertion into a list sorted by `id`. -/
def insById (c : Category) : List Category → List Category
  | [] => [c]
  | d :: ds => if c.id ≤ d.id then c :: d :: ds else d :: insById c ds

/-- `sorted(..., key=lambda x: x['id'])`: a stable sort by `id` (Python's
`sorted` is stable; a stable sort by a key is unique, so insertion sort
computes it). -/
def sortById : List Category → List Category
  | [] => []
  | c :: cs => insById c (sortById cs)

/-- Lines 101-106 for one record: rewrite `category_id` through the table when
present there, and report whether the record was counted as updated. -/
def updateAnn (table : List (Int × Int)) (a : AnnRec) : AnnRec × Bool :=
  match a.category_id with
  | some c =>
    match dlookup c table with
    | some n => ({ a with category_id := some n }, true)
    | none => (a, false)
  | none => (a, false)

/-- Result of `normalize_annotation_file`: the on-disk content after the call
and the returned statistics. -/
structure CocoResult where
  file : AnnDoc
  stats : CocoStats
deriving DecidableEq, Repr

/-- `normalize_annotation_file` (lines 37-116).  When `categories` is absent
the zero statistics are returned before any write; otherwise the remap table
is built from the local category list, annotations are rewritten through it,
the category list is replaced by the canonical list sorted by id, and the file
is overwritten unless `dry_run`. -/
def normalize_annotation_file (std : List (Str × Category)) (doc : AnnDoc)
    (dry_run : Bool) : CocoResult :=
  match doc.categories with
  | none =>
    { file := doc
      stats := { categories_found := 0, categories_normalized := 0
                 annotations_updated := 0, unmapped_categories := [] } }
  | some cats =>
    let b := cocoBuild std cats
    let new_categories := sortById (dvalues std)
    let annPairs := (doc.annotations.getD []).map (updateAnn b.1)
    let newDoc : AnnDoc :=
      { categories := some new_categories
        annotations := if doc.annotations.isSome then some (annPairs.map Prod.fst) else none
        rest := doc.rest }
    { file := if dry_run then doc else newDoc
      stats := { categories_found := cats.length
                 categories_normalized := b.2.1
                 annotations_updated := (annPairs.filter (fun p => p.2)).length
                 unmapped_categories := b.2.2 } }

/-! ## YOLO-style reconciler (`src/normalize_annotations_yolo.py`) -/

/-- The fixed `DAMAGE_CLASSES` set (lines 35-42). -/
def DAMAGE_CLASSES : List Str :=
  ["Móp, bẹp(thụng)".data, "Vỡ, nứt".data, "Trầy, xước".data,
   "Thủng, rách".data, "Long, rụng".data, "Mất".data]

/-- `load_reference_mapping` (lines 45-60): dict from trimmed class name to
class id, built over the reference `names` items in order. -/
def load_reference_mapping (names : List (Int × Str)) : List (Str × Int) :=
  names.foldl (fun m p => dinsert (pystrip p.2) p.1 m) []

/-- Loop body of lines 99-114: extend `(id_mapping, damage_class_ids)` by one
declared `(old_id, class_name)` item. -/
def classStep (ref : List (Str × Int)) (acc : List (Int × Int) × List Int)
    (p : Int × Str) : List (Int × Int) × List Int :=
  let c := pystrip p.2
  if c ∈ DAMAGE_CLASSES then (acc.1, acc.2 ++ [p.1])
  else
    match dlookup c ref with
    | some nid => (dinsert p.1 nid acc.1, acc.2)
    | none => acc

/-- `create_class_id_mapping` (lines 78-116): `none` models a manifest without
a `names` field (early return of empty results). -/
def create_class_id_mapping (names : Option (List (Int × Str)))
    (ref : List (Str × Int)) : List (Int × Int) × List Int :=
  match names with
  | none => ([], [])
  | some ns => ns.foldl (classStep ref) ([], [])

/-- Warning accumulation for one declared class (the `logger.warning` arm of
the loop of lines 99-114). -/
def warnStep (ref : List (Str × Int)) (acc : List (Int × Str))
    (p : Int × Str) : List (Int × Str) :=
  let c := pystrip p.2
  if c ∈ DAMAGE_CLASSES then acc
  else
    match dlookup c ref with
    | some _ => acc
    | none => acc ++ [p]

/-- The `(old_id, class_name)` pairs the loop of lines 99-114 reports through
`logger.warning` (line 114): declared classes that are neither damage names
nor present in the reference mapping. -/
def class_id_warnings (names : Option (List (Int × Str)))
    (ref : List (Str × Int)) : List (Int × Str) :=
  match names with
  | none => []
  | some ns => ns.foldl (warnStep ref) []

/-- A parsed `data.yaml` manifest: `train` / `val` / `names` are `none` when
the key is absent; `extra` stands for any other keys (`0` after the canonical
rewrite, which emits exactly the three keys). -/
structure ManifestDoc where
  train : Option Str
  val : Option Str
  names : Option (List (Int × Str))
  extra : Nat
deriving DecidableEq, Repr

/-- `{class_id: class_name for class_name, class_id in reference_mapping.items()}`
(line 129). -/
def invertRef (ref : List (Str × Int)) : List (Int × Str) :=
  ref.foldl (fun m p => dinsert p.2 p.1 m) []

/-- The manifest content lines 126-130 write: the two fixed split paths and
the inverted canonical mapping, nothing else. -/
def canonicalManifest (ref : List (Str × Int)) : ManifestDoc :=
  { train := some "images/train".data
    val := some "images/val".data
    names := some (invertRef ref)
    extra := 0 }

/-- `normalize_data_yaml` (lines 119-137): overwrite the manifest with the
canonical content unless in dry-run mode. -/
def normalize_data_yaml (current : ManifestDoc) (ref : List (Str × Int))
    (dry_run : Bool) : ManifestDoc :=
  if dry_run then current else canonicalManifest ref

/-- Outcome of the loop body of lines 168-197 on one raw line. -/
inductive LineResult where
  | dropped : LineResult
  | removed : LineResult
  | remapped : Str → LineResult
  | kept : Str → LineResult
deriving DecidableEq, Repr

/-- Loop body of lines 168-197: strip the line, drop it when blank, malformed
(fewer than two tokens) or unparsable; drop damage-class ids counting them
removed; rewrite mapped ids counting them remapped; keep the stripped line
otherwise. -/
def processLine (id_mapping : List (Int × Int)) (damage_class_ids : List Int)
    (line : Str) : LineResult :=
  let t := pystrip line
  if t = [] then .dropped
  else
    match pysplit t with
    | [] => .dropped
    | p0 :: rest =>
      if rest.length + 1 < 2 then .dropped
      else
        match pyParseInt p0 with
        | none => .dropped
        | some cid =>
          if cid ∈ damage_class_ids then .removed
          else
            match dlookup cid id_mapping with
            | some nid => .remapped (pyjoin (intToStr nid :: rest))
            | none => .kept t

/-- The loop of lines 168-197 over all raw lines: the surviving `new_lines`
(in order) and the `(num_remapped, num_removed)` counters. -/
def processLines (m : List (Int × Int)) (d : List Int) :
    List Str → List Str × Nat × Nat
  | [] => ([], 0, 0)
  | l :: ls =>
    let r := processLines m d ls
    match processLine m d l with
    | .dropped => r
    | .removed => (r.1, r.2.1, r.2.2 + 1)
    | .remapped o => (o :: r.1, r.2.1 + 1, r.2.2)
    | .kept o => (o :: r.1, r.2.1, r.2.2)

/-- Result of `normalize_label_file`: the on-disk content after the call
(`none` = absent file) and the two returned counters. -/
structure LabelResult where
  file : Option Str
  num_remapped : Nat
  num_removed : Nat
deriving DecidableEq, Repr

/-- `normalize_label_file` (lines 140-205): a missing file returns `(0, 0)`;
otherwise the lines are processed and the file overwritten with the surviving
lines unless in dry-run mode. -/
def normalize_label_file (content : Option Str) (id_mapping : List (Int × Int))
    (damage_class_ids : List Int) (dry_run : Bool) : LabelResult :=
  match content with
  | none => { file := none, num_remapped := 0, num_removed := 0 }
  | some c =>
    let pr := processLines id_mapping damage_class_ids (pyreadlines c)
    { file := if dry_run then some c else some (renderLines pr.1)
      num_remapped := pr.2.1
      num_removed := pr.2.2 }

/-- A dataset as the reconciler sees it: the manifest content and the contents
of the discovered label files (discovery itself — `rglob` and the path
filter — is filesystem plumbing outside the embedding). -/
structure DatasetState where
  manifest : ManifestDoc
  labels : List (Option Str)
deriving DecidableEq, Repr

/-- Result of `normalize_dataset`: the dataset files after the call and the
returned statistics. -/
structure DatasetResult where
  state : DatasetState
  annotations_remapped : Nat
  annotations_removed : Nat
  classes_mapped : Nat
  damage_classes : Nat
deriving DecidableEq, Repr

/-- `normalize_dataset` (lines 208-257): build the per-dataset mapping, rewrite
the manifest, process every label file, and sum the counters. -/
def normalize_dataset (st : DatasetState) (ref : List (Str × Int))
    (dry_run : Bool) : DatasetResult :=
  let md := create_class_id_mapping st.manifest.names ref
  let results := st.labels.map (fun c => normalize_label_file c md.1 md.2 dry_run)
  { state := { manifest := normalize_data_yaml st.manifest ref dry_run
               labels := results.map LabelResult.file }
    annotations_remapped := (results.map LabelResult.num_remapped).sum
    annotations_removed := (results.map LabelResult.num_removed).sum
    classes_mapped := md.1.length
    damage_classes := md.2.length }

/-! ## Dict lemmas -/

theorem dlookup_dinsert_self {κ ν : Type} [DecidableEq κ] (k : κ) (v : ν)
    (d : List (κ × ν)) : dlookup k (dinsert k v d) = some v := by
  induction d with
  | nil => simp [dinsert, dlookup]
  | cons p rest ih =>
    obtain ⟨a, b⟩ := p
    by_cases h : a = k
    · simp [dinsert, dlookup, h]
    · simp [dinsert, dlookup, h, ih]

theorem dlookup_dinsert_ne {κ ν : Type} [DecidableEq κ] {k k' : κ} (v : ν)
    (d : List (κ × ν)) (h : k' ≠ k) :
    dlookup k' (dinsert k v d) = dlookup k' d := by
  have hk : ¬(k = k') := fun he => h he.symm
  induction d with
  | nil => simp [dinsert, dlookup, hk]
  | cons p rest ih =>
    obtain ⟨a, b⟩ := p
    by_cases ha : a = k
    · subst ha
      simp [dinsert, dlookup, hk]
    · simp [dinsert, dlookup, ha, ih]

theorem mem_dinsert {κ ν : Type} [DecidableEq κ] {k : κ} {v : ν}
    {d : List (κ × ν)} {q : κ × ν} (h : q ∈ dinsert k v d) :
    q = (k, v) ∨ q ∈ d := by
  induction d with
  | nil => simpa [dinsert] using h
  | cons p rest ih =>
    obtain ⟨a, b⟩ := p
    by_cases ha : a = k
    · rw [dinsert, if_pos ha] at h
      rcases List.mem_cons.mp h with h | h
      · exact Or.inl h
      · exact Or.inr (List.mem_cons.mpr (Or.inr h))
    · rw [dinsert, if_neg ha] at h
      rcases List.mem_cons.mp h with h | h
      · exact Or.inr (List.mem_cons.mpr (Or.inl h))
      · rcases ih h with h' | h'
        · exact Or.inl h'
        · exact Or.inr (List.mem_cons.mpr (Or.inr h'))

theorem mem_dkeys_dinsert_of_mem {κ ν : Type} [DecidableEq κ] {x k : κ} (v : ν)
    {d : List (κ × ν)} (h : x ∈ dkeys d) : x ∈ dkeys (dinsert k v d) := by
  induction d with
  | nil => simp [dkeys] at h
  | cons p rest ih =>
    obtain ⟨a, b⟩ := p
    simp only [dkeys, List.map_cons, List.mem_cons] at h
    by_cases ha : a = k
    · rw [dinsert, if_pos ha]
      simp only [dkeys, List.map_cons, List.mem_cons]
      rcases h with h' | h'
      · exact Or.inl (ha ▸ h')
      · exact Or.inr h'
    · rw [dinsert, if_neg ha]
      simp only [dkeys, List.map_cons, List.mem_cons]
      rcases h with h' | h'
      · exact Or.inl h'
      · exact Or.inr (ih h')

theorem mem_dkeys_dinsert_self {κ ν : Type} [DecidableEq κ] (k : κ) (v : ν)
    (d : List (κ × ν)) : k ∈ dkeys (dinsert k v d) := by
  induction d with
  | nil => simp [dinsert, dkeys]
  | cons p rest ih =>
    obtain ⟨a, b⟩ := p
    by_cases ha : a = k
    · rw [dinsert, if_pos ha]
      simp [dkeys]
    · rw [dinsert, if_neg ha]
      simp only [dkeys, List.map_cons, List.mem_cons]
      exact Or.inr ih

theorem dlookup_mem {κ ν : Type} [DecidableEq κ] {k : κ} {v : ν}
    {d : List (κ × ν)} (h : dlookup k d = some v) : (k, v) ∈ d := by
  induction d with
  | nil => simp [dlookup] at h
  | cons p rest ih =>
    obtain ⟨a, b⟩ := p
    by_cases ha : a = k
    · rw [dlookup, if_pos ha] at h
      obtain rfl : b = v := Option.some.injEq _ _ ▸ h
      subst ha
      exact List.mem_cons.mpr (Or.inl rfl)
    · rw [dlookup, if_neg ha] at h
      exact List.mem_cons.mpr (Or.inr (ih h))

theorem dlookup_eq_some_of_mem {κ ν : Type} [DecidableEq κ] {k : κ} {v : ν}
    {d : List (κ × ν)} (hnd : (dkeys d).Nodup) (h : (k, v) ∈ d) :
    dlookup k d = some v := by
  induction d with
  | nil => simp at h
  | cons p rest ih =>
    obtain ⟨a, b⟩ := p
    simp only [dkeys, List.map_cons, List.nodup_cons] at hnd
    rcases List.mem_cons.mp h with h' | h'
    · obtain ⟨rfl, rfl⟩ := Prod.mk.injEq .. ▸ h'.symm
      rw [dlookup, if_pos rfl]
    · have hk : ¬(a = k) := by
        intro he
        exact hnd.1 (he ▸ (List.mem_map.mpr ⟨(k, v), h', rfl⟩))
      rw [dlookup, if_neg hk]
      exact ih hnd.2 h'

theorem dkeys_mem_of_dlookup {κ ν : Type} [DecidableEq κ] {k : κ}
    {d : List (κ × ν)} {v : ν} (h : dlookup k d = some v) : k ∈ dkeys d :=
  List.mem_map.mpr ⟨(k, v), dlookup_mem h, rfl⟩

theorem dlookup_isSome_of_mem_dkeys {κ ν : Type} [DecidableEq κ] {k : κ}
    {d : List (κ × ν)} (h : k ∈ dkeys d) : ∃ v, dlookup k d = some v := by
  induction d with
  | nil => simp [dkeys] at h
  | cons p rest ih =>
    obtain ⟨a, b⟩ := p
    by_cases ha : a = k
    · exact ⟨b, by rw [dlookup, if_pos ha]⟩
    · simp only [dkeys, List.map_cons, List.mem_cons] at h
      rcases h with h' | h'
      · exact absurd h'.symm ha
      · rw [dlookup]
        simpa [ha] using ih h'

theorem dkeys_nodup_dinsert {κ ν : Type} [DecidableEq κ] (k : κ) (v : ν)
    {d : List (κ × ν)} (h : (dkeys d).Nodup) : (dkeys (dinsert k v d)).Nodup := by
  induction d with
  | nil => simp [dinsert, dkeys]
  | cons p rest ih =>
    obtain ⟨a, b⟩ := p
    simp only [dkeys, List.map_cons, List.nodup_cons] at h
    by_cases ha : a = k
    · subst ha
      rw [dinsert, if_pos rfl]
      simp only [dkeys, List.map_cons, List.nodup_cons]
      exact h
    · rw [dinsert, if_neg ha]
      simp only [dkeys, List.map_cons, List.nodup_cons]
      refine ⟨fun hc => ?_, ih h.2⟩
      rcases List.mem_map.mp hc with ⟨q, hq, hq1⟩
      rcases mem_dinsert hq with h' | h'
      · exact ha (by rw [h'] at hq1; exact hq1.symm)
      · exact h.1 (List.mem_map.mpr ⟨q, h', hq1⟩)

theorem dlookup_eq_none_of_not_mem_dkeys {κ ν : Type} [DecidableEq κ] {k : κ}
    {d : List (κ × ν)} (h : k ∉ dkeys d) : dlookup k d = none := by
  cases hl : dlookup k d with
  | none => rfl
  | some v => exact absurd (dkeys_mem_of_dlookup hl) h

/-! ## String lemmas -/

theorem mem_of_getLast?_eq {α : Type} {l : List α} {x : α}
    (h : l.getLast? = some x) : x ∈ l := by
  have hx : x ∈ l.getLast? := by rw [h]; rfl
  rcases List.mem_getLast?_eq_getLast hx with ⟨hne, hx'⟩
  exact hx' ▸ List.getLast_mem hne

theorem pystrip_eq_self {s : Str}
    (hh : ∀ c, s.head? = some c → isspace c = false)
    (hl : ∀ c, s.getLast? = some c → isspace c = false) : pystrip s = s := by
  unfold pystrip
  cases s with
  | nil => rfl
  | cons c t =>
    have h1 : isspace c = false := hh c rfl
    rw [List.dropWhile_cons, h1]
    simp only [Bool.false_eq_true, if_false]
    cases hr : (c :: t).reverse with
    | nil => simp at hr
    | cons d r =>
      have hd : (c :: t).getLast? = some d := by
        rw [← List.head?_reverse, hr]
        rfl
      have h2 : isspace d = false := hl d hd
      rw [List.dropWhile_cons, h2]
      simp only [Bool.false_eq_true, if_false]
      rw [← hr, List.reverse_reverse]

theorem pystrip_append_ws {s : Str} {c : Char} (hc : isspace c = true) :
    pystrip (s ++ [c]) = pystrip s := by
  unfold pystrip
  rw [List.dropWhile_append]
  by_cases he : (s.dropWhile isspace).isEmpty
  · rw [if_pos he]
    have h2 : s.dropWhile isspace = [] := List.isEmpty_iff.mp he
    rw [h2]
    rw [show List.dropWhile isspace [c] = ([] : Str) by rw [List.dropWhile_cons, hc]; rfl]
  · rw [if_neg he]
    rw [List.reverse_append, List.reverse_singleton, List.singleton_append,
      List.dropWhile_cons, hc]
    simp only [if_true]

theorem pysplitAux_tokens {s : Str} :
    ∀ tok : Str, (∀ c ∈ tok, isspace c = false) →
      ∀ t ∈ pysplitAux s tok, t ≠ [] ∧ ∀ c ∈ t, isspace c = false := by
  induction s with
  | nil =>
    intro tok htok t ht
    unfold pysplitAux at ht
    by_cases he : tok.isEmpty
    · simp [he] at ht
    · rw [if_neg he] at ht
      have : t = tok.reverse := by simpa using ht
      subst this
      refine ⟨by simpa [List.isEmpty_iff] using he, fun c hc => htok c (by simpa using hc)⟩
  | cons c rest ih =>
    intro tok htok t ht
    unfold pysplitAux at ht
    by_cases hc : isspace c
    · rw [if_pos hc] at ht
      by_cases he : tok.isEmpty
      · rw [if_pos he] at ht
        exact ih [] (by simp) t ht
      · rw [if_neg he] at ht
        rcases List.mem_cons.mp ht with h' | h'
        · subst h'
          refine ⟨by simpa [List.isEmpty_iff] using he, fun x hx => htok x (by simpa using hx)⟩
        · exact ih [] (by simp) t h'
    · rw [if_neg hc] at ht
      refine ih (c :: tok) ?_ t ht
      intro x hx
      rcases List.mem_cons.mp hx with h' | h'
      · subst h'
        exact Bool.not_eq_true _ ▸ (by simpa using hc)
      · exact htok x h'

theorem pysplit_tokens {s : Str} :
    ∀ t ∈ pysplit s, t ≠ [] ∧ ∀ c ∈ t, isspace c = false :=
  pysplitAux_tokens [] (by simp)

theorem pysplitAux_nonspace_run {t : Str} (ht : ∀ c ∈ t, isspace c = false) :
    ∀ s tok, pysplitAux (t ++ s) tok = pysplitAux s (t.reverse ++ tok) := by
  induction t with
  | nil => intro s tok; simp
  | cons c u ih =>
    intro s tok
    have hc : isspace c = false := ht c (List.mem_cons_self _ _)
    rw [List.cons_append]
    simp only [pysplitAux, hc, Bool.false_eq_true, if_false]
    rw [ih (fun x hx => ht x (List.mem_cons_of_mem _ hx)) s (c :: tok)]
    congr 1
    rw [List.reverse_cons, List.append_assoc]
    rfl

theorem pysplit_pyjoin {ts : List Str}
    (h : ∀ t ∈ ts, t ≠ [] ∧ ∀ c ∈ t, isspace c = false) :
    pysplit (pyjoin ts) = ts := by
  induction ts with
  | nil => rfl
  | cons t us ih =>
    obtain ⟨ht1, ht2⟩ := h t (List.mem_cons_self _ _)
    cases us with
    | nil =>
      show pysplitAux (pyjoin [t]) [] = [t]
      rw [show pyjoin [t] = t from rfl, show t = t ++ ([] : Str) by simp,
        pysplitAux_nonspace_run ht2]
      unfold pysplitAux
      rw [if_neg (by simpa [List.isEmpty_iff] using ht1)]
      simp
    | cons u vs =>
      show pysplitAux (pyjoin (t :: u :: vs)) [] = t :: u :: vs
      rw [show pyjoin (t :: u :: vs) = t ++ ' ' :: pyjoin (u :: vs) from rfl,
        pysplitAux_nonspace_run ht2]
      unfold pysplitAux
      rw [if_pos (by decide)]
      rw [if_neg (by simpa [List.isEmpty_iff] using ht1)]
      simp only [List.append_nil, List.reverse_reverse]
      exact congrArg (fun z => t :: z) (ih (fun x hx => h x (List.mem_cons_of_mem _ hx)))

theorem pyjoin_ne_nil {ts : List Str} (hne : ts ≠ [])
    (h : ∀ t ∈ ts, t ≠ []) : pyjoin ts ≠ [] := by
  cases ts with
  | nil => exact absurd rfl hne
  | cons t us =>
    cases us with
    | nil => exact h t (List.mem_cons_self _ _)
    | cons u vs =>
      show t ++ ' ' :: pyjoin (u :: vs) ≠ []
      simp [h t (List.mem_cons_self _ _)]

theorem pyjoin_head_not_space {ts : List Str}
    (h : ∀ t ∈ ts, t ≠ [] ∧ ∀ c ∈ t, isspace c = false) :
    ∀ c, (pyjoin ts).head? = some c → isspace c = false := by
  intro c hc
  cases ts with
  | nil => simp [pyjoin] at hc
  | cons t us =>
    obtain ⟨ht1, ht2⟩ := h t (List.mem_cons_self _ _)
    have hh : (pyjoin (t :: us)).head? = t.head? := by
      cases us with
      | nil => rfl
      | cons u vs =>
        show (t ++ ' ' :: pyjoin (u :: vs)).head? = t.head?
        cases t with
        | nil => exact absurd rfl ht1
        | cons a b => rfl
    rw [hh] at hc
    exact ht2 c (by
      cases t with
      | nil => simp at hc
      | cons a b =>
        simp only [List.head?_cons, Option.some.injEq] at hc
        exact hc ▸ List.mem_cons_self _ _)

theorem pyjoin_last_not_space {ts : List Str}
    (h : ∀ t ∈ ts, t ≠ [] ∧ ∀ c ∈ t, isspace c = false) :
    ∀ c, (pyjoin ts).getLast? = some c → isspace c = false := by
  induction ts with
  | nil => intro c hc; simp [pyjoin] at hc
  | cons t us ih =>
    intro c hc
    obtain ⟨ht1, ht2⟩ := h t (List.mem_cons_self _ _)
    cases us with
    | nil =>
      exact ht2 c (mem_of_getLast?_eq hc)
    | cons u vs =>
      have hne : pyjoin (u :: vs) ≠ [] :=
        pyjoin_ne_nil (by simp) (fun x hx => (h x (List.mem_cons_of_mem _ hx)).1)
      have : (pyjoin (t :: u :: vs)).getLast? = (pyjoin (u :: vs)).getLast? := by
        show (t ++ ' ' :: pyjoin (u :: vs)).getLast? = _
        rw [List.getLast?_append_of_ne_nil _ (by simp)]
        cases hp : pyjoin (u :: vs) with
        | nil => exact absurd hp hne
        | cons a b => rw [List.getLast?_cons_cons]
      rw [this] at hc
      exact ih (fun x hx => h x (List.mem_cons_of_mem _ hx)) c hc

theorem pyjoin_no_newline {ts : List Str}
    (h : ∀ t ∈ ts, ∀ c ∈ t, isspace c = false) : '\n' ∉ pyjoin ts := by
  induction ts with
  | nil => simp [pyjoin]
  | cons t us ih =>
    have ht := h t (List.mem_cons_self _ _)
    cases us with
    | nil =>
      intro hmem
      exact absurd (ht _ hmem) (by decide)
    | cons u vs =>
      show '\n' ∉ t ++ ' ' :: pyjoin (u :: vs)
      intro hmem
      rcases List.mem_append.mp hmem with h' | h'
      · exact absurd (ht _ h') (by decide)
      · rcases List.mem_cons.mp h' with h'' | h''
        · exact absurd h'' (by decide)
        · exact ih (fun x hx => h x (List.mem_cons_of_mem _ hx)) h''

/-! ## Decimal printing and parsing lemmas -/

theorem digitChar_not_space (d : Nat) : isspace (digitChar d) = false := by
  unfold digitChar
  split_ifs <;> decide

theorem digitChar_ne_plus (d : Nat) : digitChar d ≠ '+' := by
  unfold digitChar
  split_ifs <;> decide

theorem digitChar_ne_minus (d : Nat) : digitChar d ≠ '-' := by
  unfold digitChar
  split_ifs <;> decide

theorem digitVal_digitChar {d : Nat} (h : d < 10) : digitVal (digitChar d) = some d := by
  interval_cases d <;> decide

theorem natToStrGo_fuel : ∀ f1 n acc, n ≤ f1 → ∀ f2, n ≤ f2 →
    natToStrGo f1 n acc = natToStrGo f2 n acc := by
  intro f1
  induction f1 with
  | zero =>
    intro n acc h1 f2 h2
    have hn : n = 0 := by omega
    subst hn
    cases f2 with
    | zero => rfl
    | succ g => simp [natToStrGo]
  | succ f ih =>
    intro n acc h1 f2 h2
    by_cases hn : n < 10
    · cases f2 with
      | zero =>
        have : n = 0 := by omega
        subst this
        simp [natToStrGo]
      | succ g => simp [natToStrGo, hn]
    · cases f2 with
      | zero => omega
      | succ g =>
        simp only [natToStrGo, hn, if_false]
        exact ih (n / 10) _ (by omega) g (by omega)

theorem natToStrAux_lt {n : Nat} (h : n < 10) (acc : Str) :
    natToStrAux n acc = digitChar n :: acc := by
  unfold natToStrAux
  cases n with
  | zero => rfl
  | succ m => simp [natToStrGo, h]

theorem natToStrAux_ge {n : Nat} (h : ¬n < 10) (acc : Str) :
    natToStrAux n acc = natToStrAux (n / 10) (digitChar (n % 10) :: acc) := by
  unfold natToStrAux
  cases n with
  | zero => omega
  | succ m =>
    simp only [natToStrGo, h, if_false]
    exact natToStrGo_fuel m _ _ (by omega) _ (by omega)

theorem natToStrAux_append (n : Nat) : ∀ acc : Str, natToStrAux n acc = natToStr n ++ acc := by
  induction n using Nat.strong_induction_on with
  | _ n ih =>
    intro acc
    by_cases h : n < 10
    · rw [natToStrAux_lt h, natToStr, natToStrAux_lt h]
      rfl
    · have hlt : n / 10 < n := Nat.div_lt_self (by omega) (by omega)
      rw [natToStrAux_ge h]
      conv_rhs => rw [natToStr, natToStrAux_ge h]
      rw [ih _ hlt, ih _ hlt [digitChar (n % 10)]]
      simp [List.append_assoc]

theorem mem_natToStrAux {c : Char} (n : Nat) :
    ∀ acc : Str, c ∈ natToStrAux n acc → (∃ d, d < 10 ∧ c = digitChar d) ∨ c ∈ acc := by
  induction n using Nat.strong_induction_on with
  | _ n ih =>
    intro acc hc
    by_cases h : n < 10
    · rw [natToStrAux_lt h] at hc
      rcases List.mem_cons.mp hc with h' | h'
      · exact Or.inl ⟨n, h, h'⟩
      · exact Or.inr h'
    · have hlt : n / 10 < n := Nat.div_lt_self (by omega) (by omega)
      rw [natToStrAux_ge h] at hc
      rcases ih _ hlt _ hc with h' | h'
      · exact Or.inl h'
      · rcases List.mem_cons.mp h' with h'' | h''
        · exact Or.inl ⟨n % 10, Nat.mod_lt _ (by omega), h''⟩
        · exact Or.inr h''

theorem mem_natToStr {c : Char} {n : Nat} (h : c ∈ natToStr n) :
    ∃ d, d < 10 ∧ c = digitChar d := by
  rcases mem_natToStrAux n [] h with h' | h'
  · exact h'
  · simp at h'

theorem natToStrAux_ne_nil (n : Nat) : ∀ acc : Str, natToStrAux n acc ≠ [] := by
  induction n using Nat.strong_induction_on with
  | _ n ih =>
    intro acc
    by_cases h : n < 10
    · rw [natToStrAux_lt h]
      simp
    · have hlt : n / 10 < n := Nat.div_lt_self (by omega) (by omega)
      rw [natToStrAux_ge h]
      exact ih _ hlt _

theorem natToStr_ne_nil (n : Nat) : natToStr n ≠ [] := natToStrAux_ne_nil n []

theorem natToStr_not_space {c : Char} {n : Nat} (h : c ∈ natToStr n) :
    isspace c = false := by
  rcases mem_natToStr h with ⟨d, _, rfl⟩
  exact digitChar_not_space d

theorem dfold_cons (a : Nat) (c : Char) (ds : Str) :
    dfold a (c :: ds) = dfold (a * 10 + (digitVal c).getD 0) ds := rfl

theorem dfold_append (a : Nat) (xs ys : Str) :
    dfold a (xs ++ ys) = dfold (dfold a xs) ys :=
  List.foldl_append _ _ _ _

theorem digitVal_eq_some {c : Char} {d : Nat} (hd : digitVal c = some d) :
    isDigit c = true ∧ digitValD c = d := by
  unfold digitVal at hd
  by_cases h : isDigit c
  · rw [if_pos h] at hd
    exact ⟨h, Option.some.injEq _ _ ▸ hd⟩
  · rw [if_neg h] at hd
    exact absurd hd (by simp)

theorem parseUDigits_cons_digit {c : Char} {d : Nat} (hd : digitVal c = some d)
    (rest : Str) (a : Nat) :
    parseUDigits (c :: rest) a = parseUDigits rest (a * 10 + d) := by
  obtain ⟨h1, h2⟩ := digitVal_eq_some hd
  conv_lhs => unfold parseUDigits
  rw [if_pos h1, h2]

theorem parseNat_cons_digit {c : Char} {d : Nat} (hd : digitVal c = some d)
    (rest : Str) : parseNat (c :: rest) = parseUDigits rest d := by
  obtain ⟨h1, h2⟩ := digitVal_eq_some hd
  show (if isDigit c = true then parseUDigits rest (digitValD c) else none) =
    parseUDigits rest d
  rw [if_pos h1, h2]

theorem parseUDigits_all_digit {ds : Str} (h : ∀ c ∈ ds, (digitVal c).isSome) :
    ∀ a : Nat, parseUDigits ds a = some (dfold a ds) := by
  induction ds with
  | nil => intro a; rfl
  | cons c rest ih =>
    intro a
    obtain ⟨d, hd⟩ := Option.isSome_iff_exists.mp (h c (List.mem_cons_self _ _))
    rw [parseUDigits_cons_digit hd]
    rw [ih (fun x hx => h x (List.mem_cons_of_mem _ hx))]
    rw [dfold_cons, hd]
    rfl

theorem parseNat_all_digit {ds : Str} (hne : ds ≠ [])
    (h : ∀ c ∈ ds, (digitVal c).isSome) : parseNat ds = some (dfold 0 ds) := by
  cases ds with
  | nil => exact absurd rfl hne
  | cons c rest =>
    obtain ⟨d, hd⟩ := Option.isSome_iff_exists.mp (h c (List.mem_cons_self _ _))
    rw [parseNat_cons_digit hd]
    rw [parseUDigits_all_digit (fun x hx => h x (List.mem_cons_of_mem _ hx))]
    rw [dfold_cons, hd]
    norm_num

theorem natToStr_all_digit {n : Nat} : ∀ c ∈ natToStr n, (digitVal c).isSome := by
  intro c hc
  rcases mem_natToStr hc with ⟨d, hd, rfl⟩
  rw [digitVal_digitChar hd]
  rfl

theorem dfold_natToStr (n : Nat) :
    ∀ a : Nat, dfold a (natToStr n) = a * 10 ^ (natToStr n).length + n := by
  induction n using Nat.strong_induction_on with
  | _ n ih =>
    intro a
    by_cases h : n < 10
    · rw [natToStr, natToStrAux_lt h]
      rw [show dfold a [digitChar n] = a * 10 + (digitVal (digitChar n)).getD 0 from rfl]
      rw [digitVal_digitChar h]
      simp
    · have hlt : n / 10 < n := Nat.div_lt_self (by omega) (by omega)
      have hsplit : natToStr n = natToStr (n / 10) ++ [digitChar (n % 10)] := by
        rw [natToStr, natToStrAux_ge h, natToStrAux_append]
      rw [hsplit, dfold_append, ih _ hlt]
      rw [show dfold (a * 10 ^ (natToStr (n / 10)).length + n / 10) [digitChar (n % 10)] =
        (a * 10 ^ (natToStr (n / 10)).length + n / 10) * 10 +
          (digitVal (digitChar (n % 10))).getD 0 from rfl]
      rw [digitVal_digitChar (Nat.mod_lt _ (by omega))]
      rw [List.length_append, List.length_singleton]
      have : 10 ^ ((natToStr (n / 10)).length + 1) = 10 ^ (natToStr (n / 10)).length * 10 := by
        rw [pow_succ]
      rw [this]
      have hmod : n % 10 + 10 * (n / 10) = n := Nat.mod_add_div _ _
      simp only [Option.getD_some]
      ring_nf
      omega

theorem parseNat_natToStr (n : Nat) : parseNat (natToStr n) = some n := by
  rw [parseNat_all_digit (natToStr_ne_nil n) natToStr_all_digit]
  rw [dfold_natToStr n 0]
  simp

theorem intToStr_ne_nil (i : Int) : intToStr i ≠ [] := by
  unfold intToStr
  split_ifs
  · simp
  · exact natToStr_ne_nil _

theorem intToStr_not_space {c : Char} {i : Int} (h : c ∈ intToStr i) :
    isspace c = false := by
  unfold intToStr at h
  split_ifs at h
  · rcases List.mem_cons.mp h with h' | h'
    · subst h'; decide
    · exact natToStr_not_space h'
  · exact natToStr_not_space h

theorem pystrip_intToStr (i : Int) : pystrip (intToStr i) = intToStr i := by
  apply pystrip_eq_self
  · intro c hc
    have hmem : c ∈ intToStr i := by
      cases he : intToStr i with
      | nil => exact absurd he (intToStr_ne_nil i)
      | cons a b =>
        rw [he] at hc
        simp only [List.head?_cons, Option.some.injEq] at hc
        simp [hc]
    exact intToStr_not_space hmem
  · intro c hc
    exact intToStr_not_space (mem_of_getLast?_eq hc)

theorem pyParseInt_intToStr (i : Int) : pyParseInt (intToStr i) = some i := by
  unfold pyParseInt
  rw [pystrip_intToStr]
  by_cases hneg : i < 0
  · rw [show intToStr i = '-' :: natToStr i.natAbs by rw [intToStr, if_pos hneg]]
    have hcore : pyParseIntCore ('-' :: natToStr i.natAbs) =
        (parseNat (natToStr i.natAbs)).map (fun n => -Int.ofNat n) := by
      simp [pyParseIntCore]
    rw [hcore, parseNat_natToStr]
    simp only [Option.map_some', Option.some.injEq, Int.ofNat_eq_natCast]
    omega
  · rw [show intToStr i = natToStr i.toNat by rw [intToStr, if_neg hneg]]
    cases he : natToStr i.toNat with
    | nil => exact absurd he (natToStr_ne_nil _)
    | cons c rest =>
      have hcmem : c ∈ natToStr i.toNat := by
        rw [he]; exact List.mem_cons_self _ _
      rcases mem_natToStr hcmem with ⟨d, hd, rfl⟩
      simp only [pyParseIntCore]
      rw [if_neg (digitChar_ne_plus d), if_neg (digitChar_ne_minus d)]
      rw [← he, parseNat_natToStr]
      simp only [Option.map_some', Option.some.injEq, Int.ofNat_eq_natCast]
      omega

/-! ## readlines lemmas -/

theorem readlinesAux_no_newline_run {l : Str} (hl : '\n' ∉ l) :
    ∀ s acc : Str, readlinesAux (l ++ s) acc = readlinesAux s (l.reverse ++ acc) := by
  induction l with
  | nil => intro s acc; simp
  | cons c u ih =>
    intro s acc
    have hc : ¬(c = '\n') := fun he => hl (he ▸ List.mem_cons_self _ _)
    rw [List.cons_append]
    simp only [readlinesAux, hc, if_false]
    rw [ih (fun hx => hl (List.mem_cons_of_mem _ hx)) s (c :: acc)]
    congr 1
    rw [List.reverse_cons, List.append_assoc]
    rfl

theorem pyreadlines_render {ls : List Str} (h : ∀ l ∈ ls, '\n' ∉ l) (hne : ls ≠ []) :
    pyreadlines (renderLines ls) = ls.map (fun l => l ++ ['\n']) := by
  induction ls with
  | nil => exact absurd rfl hne
  | cons l us ih =>
    have hl := h l (List.mem_cons_self _ _)
    cases us with
    | nil =>
      show readlinesAux (renderLines [l]) [] = [l ++ ['\n']]
      rw [show renderLines [l] = l ++ ['\n'] by simp [renderLines, joinNL]]
      rw [readlinesAux_no_newline_run hl]
      simp [readlinesAux]
    | cons u vs =>
      show readlinesAux (renderLines (l :: u :: vs)) [] = _
      have hrender : renderLines (l :: u :: vs) = l ++ '\n' :: renderLines (u :: vs) := by
        simp only [renderLines, joinNL, List.isEmpty_cons]
        rw [List.append_assoc]
        rfl
      rw [hrender, readlinesAux_no_newline_run hl]
      simp only [List.append_nil]
      show readlinesAux ('\n' :: renderLines (u :: vs)) l.reverse = _
      simp only [readlinesAux, if_pos rfl, List.reverse_reverse]
      rw [List.map_cons]
      exact congrArg (fun z => (l ++ ['\n']) :: z)
        (ih (fun x hx => h x (List.mem_cons_of_mem _ hx)) (by simp))

/-! ## processLine / processLines lemmas -/

theorem processLine_blank {line : Str} (m : List (Int × Int)) (d : List Int)
    (hb : pystrip line = []) : processLine m d line = .dropped := by
  simp only [processLine, hb, if_pos rfl]
  rfl

theorem processLine_short {line : Str} (m : List (Int × Int)) (d : List Int)
    {parts : List Str} (hb : pystrip line ≠ [])
    (hsp : pysplit (pystrip line) = parts) (hlen : parts.length < 2) :
    processLine m d line = .dropped := by
  simp only [processLine, hb, if_neg hb, hsp]
  cases parts with
  | nil => rfl
  | cons p0 rest =>
    cases rest with
    | nil => rfl
    | cons q qs =>
      exfalso
      simp only [List.length_cons] at hlen
      omega

theorem processLine_noparse {line : Str} (m : List (Int × Int)) (d : List Int)
    {p0 : Str} {rest : List Str} (hb : pystrip line ≠ [])
    (hsp : pysplit (pystrip line) = p0 :: rest) (hrest : rest ≠ [])
    (hp : pyParseInt p0 = none) : processLine m d line = .dropped := by
  have h2 : ¬(rest.length + 1 < 2) := by
    have := List.length_pos.mpr hrest
    omega
  simp only [processLine, if_neg hb, hsp, if_neg h2, hp]

theorem processLine_damage {line : Str} (m : List (Int × Int)) (d : List Int)
    {p0 : Str} {rest : List Str} {cid : Int} (hb : pystrip line ≠ [])
    (hsp : pysplit (pystrip line) = p0 :: rest) (hrest : rest ≠ [])
    (hp : pyParseInt p0 = some cid) (hd : cid ∈ d) :
    processLine m d line = .removed := by
  have h2 : ¬(rest.length + 1 < 2) := by
    have := List.length_pos.mpr hrest
    omega
  simp only [processLine, if_neg hb, hsp, if_neg h2, hp, if_pos hd]

theorem processLine_remap {line : Str} (m : List (Int × Int)) (d : List Int)
    {p0 : Str} {rest : List Str} {cid nid : Int} (hb : pystrip line ≠ [])
    (hsp : pysplit (pystrip line) = p0 :: rest) (hrest : rest ≠ [])
    (hp : pyParseInt p0 = some cid) (hd : cid ∉ d)
    (hm : dlookup cid m = some nid) :
    processLine m d line = .remapped (pyjoin (intToStr nid :: rest)) := by
  have h2 : ¬(rest.length + 1 < 2) := by
    have := List.length_pos.mpr hrest
    omega
  simp only [processLine, if_neg hb, hsp, if_neg h2, hp, if_neg hd, hm]

theorem processLine_keep {line : Str} (m : List (Int × Int)) (d : List Int)
    {p0 : Str} {rest : List Str} {cid : Int} (hb : pystrip line ≠ [])
    (hsp : pysplit (pystrip line) = p0 :: rest) (hrest : rest ≠ [])
    (hp : pyParseInt p0 = some cid) (hd : cid ∉ d)
    (hm : dlookup cid m = none) :
    processLine m d line = .kept (pystrip line) := by
  have h2 : ¬(rest.length + 1 < 2) := by
    have := List.length_pos.mpr hrest
    omega
  simp only [processLine, if_neg hb, hsp, if_neg h2, hp, if_neg hd, hm]

theorem processLine_cases (m : List (Int × Int)) (d : List Int) (l : Str) :
    processLine m d l = .dropped ∨
    ∃ p0 rest cid, pysplit (pystrip l) = p0 :: rest ∧ rest ≠ [] ∧
      pyParseInt p0 = some cid ∧
      ((cid ∈ d ∧ processLine m d l = .removed) ∨
       (cid ∉ d ∧ ∃ nid, dlookup cid m = some nid ∧
         processLine m d l = .remapped (pyjoin (intToStr nid :: rest))) ∨
       (cid ∉ d ∧ dlookup cid m = none ∧ processLine m d l = .kept (pystrip l))) := by
  by_cases hb : pystrip l = []
  · exact Or.inl (processLine_blank m d hb)
  cases hsp : pysplit (pystrip l) with
  | nil => exact Or.inl (processLine_short m d hb hsp (by simp))
  | cons p0 rest =>
    by_cases hrest : rest = []
    · exact Or.inl (processLine_short m d hb hsp (by simp [hrest]))
    cases hp : pyParseInt p0 with
    | none => exact Or.inl (processLine_noparse m d hb hsp hrest hp)
    | some cid =>
      by_cases hd : cid ∈ d
      · exact Or.inr ⟨p0, rest, cid, rfl, hrest, hp,
          Or.inl ⟨hd, processLine_damage m d hb hsp hrest hp hd⟩⟩
      cases hm : dlookup cid m with
      | some nid =>
        exact Or.inr ⟨p0, rest, cid, rfl, hrest, hp,
          Or.inr (Or.inl ⟨hd, nid, hm, processLine_remap m d hb hsp hrest hp hd hm⟩)⟩
      | none =>
        exact Or.inr ⟨p0, rest, cid, rfl, hrest, hp,
          Or.inr (Or.inr ⟨hd, hm, processLine_keep m d hb hsp hrest hp hd hm⟩)⟩

theorem processLines_nil (m : List (Int × Int)) (d : List Int) :
    processLines m d [] = ([], 0, 0) := rfl

theorem processLines_cons_dropped {m : List (Int × Int)} {d : List Int} {l : Str}
    (h : processLine m d l = .dropped) (ls : List Str) :
    processLines m d (l :: ls) = processLines m d ls := by
  simp only [processLines, h]

theorem processLines_cons_removed {m : List (Int × Int)} {d : List Int} {l : Str}
    (h : processLine m d l = .removed) (ls : List Str) :
    processLines m d (l :: ls) =
      ((processLines m d ls).1, (processLines m d ls).2.1,
        (processLines m d ls).2.2 + 1) := by
  simp only [processLines, h]

theorem processLines_cons_remapped {m : List (Int × Int)} {d : List Int} {l o : Str}
    (h : processLine m d l = .remapped o) (ls : List Str) :
    processLines m d (l :: ls) =
      (o :: (processLines m d ls).1, (processLines m d ls).2.1 + 1,
        (processLines m d ls).2.2) := by
  simp only [processLines, h]

theorem processLines_cons_kept {m : List (Int × Int)} {d : List Int} {l o : Str}
    (h : processLine m d l = .kept o) (ls : List Str) :
    processLines m d (l :: ls) =
      (o :: (processLines m d ls).1, (processLines m d ls).2.1,
        (processLines m d ls).2.2) := by
  simp only [processLines, h]

theorem processLines_append (m : List (Int × Int)) (d : List Int)
    (xs ys : List Str) :
    processLines m d (xs ++ ys) =
      ((processLines m d xs).1 ++ (processLines m d ys).1,
       (processLines m d xs).2.1 + (processLines m d ys).2.1,
       (processLines m d xs).2.2 + (processLines m d ys).2.2) := by
  induction xs with
  | nil => simp [processLines_nil]
  | cons l ls ih =>
    rw [List.cons_append]
    rcases processLine_cases m d l with h | ⟨p0, rest, cid, hsp, hrest, hp, hc⟩
    · rw [processLines_cons_dropped h, processLines_cons_dropped h, ih]
    · rcases hc with ⟨_, h⟩ | ⟨_, nid, _, h⟩ | ⟨_, _, h⟩
      · rw [processLines_cons_removed h, processLines_cons_removed h, ih]
        simp
        omega
      · rw [processLines_cons_remapped h, processLines_cons_remapped h, ih]
        simp
        omega
      · rw [processLines_cons_kept h, processLines_cons_kept h, ih]
        simp

/-! ## COCO reconciler lemmas -/

theorem loadStd_pair_inv (L : List Category) :
    ∀ acc : List (Str × Category),
      (∀ p ∈ acc, p.1 = pystrip p.2.name) →
      ∀ p ∈ L.foldl (fun m c => dinsert (pystrip c.name) c m) acc,
        p.1 = pystrip p.2.name := by
  induction L with
  | nil => intro acc h; exact h
  | cons c cs ih =>
    intro acc h
    rw [List.foldl_cons]
    apply ih
    intro p hp
    rcases mem_dinsert hp with h' | h'
    · rw [h']
    · exact h p h'

theorem loadStd_nodup (L : List Category) :
    ∀ acc : List (Str × Category), (dkeys acc).Nodup →
      (dkeys (L.foldl (fun m c => dinsert (pystrip c.name) c m) acc)).Nodup := by
  induction L with
  | nil => intro acc h; exact h
  | cons c cs ih =>
    intro acc h
    rw [List.foldl_cons]
    exact ih _ (dkeys_nodup_dinsert _ _ h)

theorem load_standard_categories_nodup (L : List Category) :
    (dkeys (load_standard_categories L)).Nodup :=
  loadStd_nodup L [] (by simp [dkeys])

theorem loadStd_lookup_self {L : List Category} {c : Category}
    (h : c ∈ dvalues (load_standard_categories L)) :
    dlookup (pystrip c.name) (load_standard_categories L) = some c := by
  rcases List.mem_map.mp h with ⟨p, hp, hsnd⟩
  have hkey : p.1 = pystrip p.2.name := loadStd_pair_inv L [] (by simp) p hp
  have hpe : p = (pystrip c.name, c) := by
    obtain ⟨a, b⟩ := p
    simp only at hsnd
    subst hsnd
    simp only at hkey
    rw [hkey]
  rw [hpe] at hp
  exact dlookup_eq_some_of_mem (load_standard_categories_nodup L) hp

theorem cocoFold_table_inv (std : List (Str × Category)) (cats : List Category) :
    ∀ acc : List (Int × Int) × Nat × List (Int × Str),
      (∀ p ∈ acc.1, p.2 ∈ (dvalues std).map Category.id ∨
        (p.2 = p.1 ∧ ∃ nm, (p.1, nm) ∈ acc.2.2)) →
      ∀ p ∈ (cats.foldl (cocoStep std) acc).1,
        p.2 ∈ (dvalues std).map Category.id ∨
        (p.2 = p.1 ∧ ∃ nm, (p.1, nm) ∈ (cats.foldl (cocoStep std) acc).2.2) := by
  induction cats with
  | nil => intro acc h; exact h
  | cons c cs ih =>
    intro acc h
    rw [List.foldl_cons]
    apply ih
    intro p hp
    cases hl : dlookup (pystrip c.name) std with
    | some stdc =>
      simp only [cocoStep, hl] at hp ⊢
      rcases mem_dinsert hp with h' | h'
      · subst h'
        left
        exact List.mem_map.mpr
          ⟨stdc, List.mem_map.mpr ⟨(pystrip c.name, stdc), dlookup_mem hl, rfl⟩, rfl⟩
      · exact h p h'
    | none =>
      simp only [cocoStep, hl] at hp ⊢
      rcases mem_dinsert hp with h' | h'
      · subst h'
        right
        exact ⟨rfl, pystrip c.name, List.mem_append.mpr (Or.inr (by simp))⟩
      · rcases h p h' with hi | ⟨he, nm, hnm⟩
        · exact Or.inl hi
        · exact Or.inr ⟨he, nm, List.mem_append.mpr (Or.inl hnm)⟩

theorem cocoFold_keys_mono (std : List (Str × Category)) (cats : List Category) :
    ∀ (acc : List (Int × Int) × Nat × List (Int × Str)) (x : Int),
      x ∈ dkeys acc.1 → x ∈ dkeys (cats.foldl (cocoStep std) acc).1 := by
  induction cats with
  | nil => intro acc x h; exact h
  | cons c cs ih =>
    intro acc x h
    rw [List.foldl_cons]
    apply ih
    cases hl : dlookup (pystrip c.name) std with
    | some stdc =>
      simp only [cocoStep, hl]
      exact mem_dkeys_dinsert_of_mem _ h
    | none =>
      simp only [cocoStep, hl]
      exact mem_dkeys_dinsert_of_mem _ h

theorem cocoFold_declared_key (std : List (Str × Category)) (c : Category) :
    ∀ (cats : List Category), c ∈ cats →
      ∀ acc : List (Int × Int) × Nat × List (Int × Str),
        c.id ∈ dkeys (cats.foldl (cocoStep std) acc).1 := by
  intro cats
  induction cats with
  | nil => intro hc; simp at hc
  | cons c0 cs ih =>
    intro hc acc
    rw [List.foldl_cons]
    rcases List.mem_cons.mp hc with h' | h'
    · subst h'
      apply cocoFold_keys_mono
      cases hl : dlookup (pystrip c.name) std with
      | some stdc =>
        simp only [cocoStep, hl]
        exact mem_dkeys_dinsert_self _ _ _
      | none =>
        simp only [cocoStep, hl]
        exact mem_dkeys_dinsert_self _ _ _
    · exact ih h' _

theorem cocoFold_identity (std : List (Str × Category)) :
    ∀ (cats : List Category),
      (∀ c ∈ cats, ∃ stdc, dlookup (pystrip c.name) std = some stdc ∧ stdc.id = c.id) →
      ∀ acc : List (Int × Int) × Nat × List (Int × Str),
        (∀ p ∈ acc.1, p.2 = p.1) →
        (∀ p ∈ (cats.foldl (cocoStep std) acc).1, p.2 = p.1) ∧
        (cats.foldl (cocoStep std) acc).2.1 = acc.2.1 + cats.length ∧
        (cats.foldl (cocoStep std) acc).2.2 = acc.2.2 := by
  intro cats
  induction cats with
  | nil => intro h acc hacc; exact ⟨hacc, by simp, rfl⟩
  | cons c cs ih =>
    intro h acc hacc
    obtain ⟨stdc, hl, hid⟩ := h c (List.mem_cons_self _ _)
    rw [List.foldl_cons]
    have hstep : cocoStep std acc c = (dinsert c.id stdc.id acc.1, acc.2.1 + 1, acc.2.2) := by
      simp only [cocoStep, hl]
    rw [hstep]
    obtain ⟨h1, h2, h3⟩ := ih (fun x hx => h x (List.mem_cons_of_mem _ hx))
      (dinsert c.id stdc.id acc.1, acc.2.1 + 1, acc.2.2)
      (fun p hp => by
        rcases mem_dinsert hp with h' | h'
        · subst h'
          exact hid
        · exact hacc p h')
    refine ⟨h1, ?_, h3⟩
    rw [h2]
    simp only [List.length_cons]
    omega

theorem mem_insById {c x : Category} : ∀ {l : List Category},
    x ∈ insById c l ↔ x = c ∨ x ∈ l := by
  intro l
  induction l with
  | nil => simp [insById]
  | cons d ds ih =>
    by_cases h : c.id ≤ d.id
    · simp [insById, h]
    · simp only [insById, h, if_false, List.mem_cons, ih]
      tauto

theorem mem_sortById {x : Category} : ∀ {l : List Category},
    x ∈ sortById l ↔ x ∈ l := by
  intro l
  induction l with
  | nil => simp [sortById]
  | cons c cs ih =>
    simp only [sortById, mem_insById, List.mem_cons, ih]

theorem updateAnn_identity {table : List (Int × Int)}
    (hid : ∀ p ∈ table, p.2 = p.1) (a : AnnRec) : (updateAnn table a).1 = a := by
  obtain ⟨f1, f2⟩ := a
  cases f1 with
  | none => rfl
  | some c =>
    cases hl : dlookup c table with
    | none => simp [updateAnn, hl]
    | some n =>
      have hn : n = c := hid (c, n) (dlookup_mem hl)
      subst hn
      simp [updateAnn, hl]

/-! ## YOLO reconciler lemmas -/

theorem classFold_damage_mono (ref : List (Str × Int)) (ns : List (Int × Str)) :
    ∀ (acc : List (Int × Int) × List Int) (x : Int), x ∈ acc.2 →
      x ∈ (ns.foldl (classStep ref) acc).2 := by
  induction ns with
  | nil => intro acc x h; exact h
  | cons p ps ih =>
    intro acc x h
    rw [List.foldl_cons]
    apply ih
    by_cases hdam : pystrip p.2 ∈ DAMAGE_CLASSES
    · simp only [classStep, if_pos hdam]
      exact List.mem_append.mpr (Or.inl h)
    · cases hl : dlookup (pystrip p.2) ref with
      | some nid =>
        simp only [classStep, if_neg hdam, hl]
        exact h
      | none =>
        simp only [classStep, if_neg hdam, hl]
        exact h

theorem classFold_keys_mono (ref : List (Str × Int)) (ns : List (Int × Str)) :
    ∀ (acc : List (Int × Int) × List Int) (x : Int), x ∈ dkeys acc.1 →
      x ∈ dkeys (ns.foldl (classStep ref) acc).1 := by
  induction ns with
  | nil => intro acc x h; exact h
  | cons p ps ih =>
    intro acc x h
    rw [List.foldl_cons]
    apply ih
    by_cases hdam : pystrip p.2 ∈ DAMAGE_CLASSES
    · simp only [classStep, if_pos hdam]
      exact h
    · cases hl : dlookup (pystrip p.2) ref with
      | some nid =>
        simp only [classStep, if_neg hdam, hl]
        exact mem_dkeys_dinsert_of_mem _ h
      | none =>
        simp only [classStep, if_neg hdam, hl]
        exact h

theorem classFold_damage_of_decl (ref : List (Str × Int)) (i : Int) (nm : Str) :
    ∀ ns : List (Int × Str), (i, nm) ∈ ns → pystrip nm ∈ DAMAGE_CLASSES →
      ∀ acc : List (Int × Int) × List Int, i ∈ (ns.foldl (classStep ref) acc).2 := by
  intro ns
  induction ns with
  | nil => intro h; simp at h
  | cons p ps ih =>
    intro hmem hdam acc
    rw [List.foldl_cons]
    rcases List.mem_cons.mp hmem with h' | h'
    · subst h'
      apply classFold_damage_mono
      simp only [classStep, if_pos hdam]
      exact List.mem_append.mpr (Or.inr (by simp))
    · exact ih h' hdam _

theorem classFold_key_of_decl (ref : List (Str × Int)) (i : Int) (nm : Str) :
    ∀ ns : List (Int × Str), (i, nm) ∈ ns → pystrip nm ∉ DAMAGE_CLASSES →
      ∀ nid : Int, dlookup (pystrip nm) ref = some nid →
      ∀ acc : List (Int × Int) × List Int,
        i ∈ dkeys (ns.foldl (classStep ref) acc).1 := by
  intro ns
  induction ns with
  | nil => intro h; simp at h
  | cons p ps ih =>
    intro hmem hdam nid hl acc
    rw [List.foldl_cons]
    rcases List.mem_cons.mp hmem with h' | h'
    · subst h'
      apply classFold_keys_mono
      simp only [classStep, if_neg hdam, hl]
      exact mem_dkeys_dinsert_self _ _ _
    · exact ih h' hdam nid hl _

theorem warnFold_mono (ref : List (Str × Int)) (ns : List (Int × Str)) :
    ∀ (acc : List (Int × Str)) (q : Int × Str), q ∈ acc →
      q ∈ ns.foldl (warnStep ref) acc := by
  induction ns with
  | nil => intro acc q h; exact h
  | cons p ps ih =>
    intro acc q h
    rw [List.foldl_cons]
    apply ih
    by_cases hdam : pystrip p.2 ∈ DAMAGE_CLASSES
    · simp only [warnStep, if_pos hdam]
      exact h
    · cases hl : dlookup (pystrip p.2) ref with
      | some nid =>
        simp only [warnStep, if_neg hdam, hl]
        exact h
      | none =>
        simp only [warnStep, if_neg hdam, hl]
        exact List.mem_append.mpr (Or.inl h)

theorem warnFold_of_decl (ref : List (Str × Int)) (i : Int) (nm : Str) :
    ∀ ns : List (Int × Str), (i, nm) ∈ ns → pystrip nm ∉ DAMAGE_CLASSES →
      dlookup (pystrip nm) ref = none →
      ∀ acc : List (Int × Str), (i, nm) ∈ ns.foldl (warnStep ref) acc := by
  intro ns
  induction ns with
  | nil => intro h; simp at h
  | cons p ps ih =>
    intro hmem hdam hl acc
    rw [List.foldl_cons]
    rcases List.mem_cons.mp hmem with h' | h'
    · subst h'
      apply warnFold_mono
      simp only [warnStep, if_neg hdam, hl]
      exact List.mem_append.mpr (Or.inr (by simp))
    · exact ih h' hdam hl _

theorem classFold_values (ref : List (Str × Int)) (ns : List (Int × Str)) :
    ∀ acc : List (Int × Int) × List Int,
      (∀ p ∈ acc.1, p.2 ∈ ref.map Prod.snd) →
      ∀ p ∈ (ns.foldl (classStep ref) acc).1, p.2 ∈ ref.map Prod.snd := by
  induction ns with
  | nil => intro acc h; exact h
  | cons q qs ih =>
    intro acc h
    rw [List.foldl_cons]
    apply ih
    intro p hp
    by_cases hdam : pystrip q.2 ∈ DAMAGE_CLASSES
    · simp only [classStep, if_pos hdam] at hp
      exact h p hp
    · cases hl : dlookup (pystrip q.2) ref with
      | some nid =>
        simp only [classStep, if_neg hdam, hl] at hp
        rcases mem_dinsert hp with h' | h'
        · subst h'
          exact List.mem_map.mpr ⟨(pystrip q.2, nid), dlookup_mem hl, rfl⟩
        · exact h p h'
      | none =>
        simp only [classStep, if_neg hdam, hl] at hp
        exact h p hp

theorem invertFold_mem (ref0 : List (Str × Int)) :
    ∀ part : List (Str × Int), (∀ p ∈ part, p ∈ ref0) →
      ∀ acc : List (Int × Str), (∀ q ∈ acc, (q.2, q.1) ∈ ref0) →
      ∀ q ∈ part.foldl (fun m p => dinsert p.2 p.1 m) acc, (q.2, q.1) ∈ ref0 := by
  intro part
  induction part with
  | nil => intro _ acc hacc q hq; exact hacc q hq
  | cons p ps ih =>
    intro hpart acc hacc q hq
    rw [List.foldl_cons] at hq
    refine ih (fun x hx => hpart x (List.mem_cons_of_mem _ hx)) _ ?_ q hq
    intro r hr
    rcases mem_dinsert hr with h' | h'
    · subst h'
      exact hpart p (List.mem_cons_self _ _)
    · exact hacc r h'

theorem invertFold_keys_mono (part : List (Str × Int)) :
    ∀ (acc : List (Int × Str)) (x : Int), x ∈ dkeys acc →
      x ∈ dkeys (part.foldl (fun m p => dinsert p.2 p.1 m) acc) := by
  induction part with
  | nil => intro acc x h; exact h
  | cons p ps ih =>
    intro acc x h
    rw [List.foldl_cons]
    exact ih _ _ (mem_dkeys_dinsert_of_mem _ h)

theorem invertFold_key_of_decl (nm : Str) (n : Int) :
    ∀ part : List (Str × Int), (nm, n) ∈ part →
      ∀ acc : List (Int × Str),
        n ∈ dkeys (part.foldl (fun m p => dinsert p.2 p.1 m) acc) := by
  intro part
  induction part with
  | nil => intro h; simp at h
  | cons p ps ih =>
    intro hmem acc
    rw [List.foldl_cons]
    rcases List.mem_cons.mp hmem with h' | h'
    · rw [← h']
      apply invertFold_keys_mono
      exact mem_dkeys_dinsert_self _ _ _
    · exact ih h' _

theorem classFold_identity (ref : List (Str × Int)) :
    ∀ items : List (Int × Str),
      (∀ q ∈ items, dlookup (pystrip q.2) ref = some q.1 ∧
        pystrip q.2 ∉ DAMAGE_CLASSES) →
      ∀ acc : List (Int × Int) × List Int, (∀ p ∈ acc.1, p.2 = p.1) →
        (∀ p ∈ (items.foldl (classStep ref) acc).1, p.2 = p.1) ∧
        (items.foldl (classStep ref) acc).2 = acc.2 ∧
        (∀ q ∈ items, q.1 ∈ dkeys (items.foldl (classStep ref) acc).1) := by
  intro items
  induction items with
  | nil =>
    intro _ acc hacc
    exact ⟨hacc, rfl, by simp⟩
  | cons q qs ih =>
    intro h acc hacc
    obtain ⟨hl, hdam⟩ := h q (List.mem_cons_self _ _)
    rw [List.foldl_cons]
    have hstep : classStep ref acc q = (dinsert q.1 q.1 acc.1, acc.2) := by
      simp only [classStep, if_neg hdam, hl]
    rw [hstep]
    obtain ⟨h1, h2, h3⟩ := ih (fun x hx => h x (List.mem_cons_of_mem _ hx))
      (dinsert q.1 q.1 acc.1, acc.2)
      (fun p hp => by
        rcases mem_dinsert hp with h' | h'
        · subst h'; rfl
        · exact hacc p h')
    refine ⟨h1, h2, ?_⟩
    intro r hr
    rcases List.mem_cons.mp hr with h' | h'
    · subst h'
      exact classFold_keys_mono ref qs _ _ (mem_dkeys_dinsert_self _ _ _)
    · exact h3 r h'

theorem map_self {α : Type} {l : List α} {f : α → α} (h : ∀ a ∈ l, f a = a) :
    l.map f = l := by
  rw [List.map_congr_left h]
  simp

theorem create_inverted (ref : List (Str × Int))
    (hK : ∀ p ∈ ref, pystrip p.1 = p.1)
    (hD : ∀ p ∈ ref, p.1 ∉ DAMAGE_CLASSES)
    (hN : (dkeys ref).Nodup) :
    (create_class_id_mapping (some (invertRef ref)) ref).2 = [] ∧
    (∀ p ∈ (create_class_id_mapping (some (invertRef ref)) ref).1, p.2 = p.1) ∧
    ∀ n ∈ ref.map Prod.snd,
      dlookup n (create_class_id_mapping (some (invertRef ref)) ref).1 = some n := by
  have hitems : ∀ q ∈ invertRef ref,
      dlookup (pystrip q.2) ref = some q.1 ∧ pystrip q.2 ∉ DAMAGE_CLASSES := by
    intro q hq
    have hmem : (q.2, q.1) ∈ ref :=
      invertFold_mem ref ref (fun p hp => hp) [] (by simp) q hq
    have hs : pystrip q.2 = q.2 := hK (q.2, q.1) hmem
    constructor
    · rw [hs]
      exact dlookup_eq_some_of_mem hN hmem
    · rw [hs]
      exact hD (q.2, q.1) hmem
  have hmain := classFold_identity ref (invertRef ref) hitems ([], []) (by simp)
  have hcre : create_class_id_mapping (some (invertRef ref)) ref =
      (invertRef ref).foldl (classStep ref) ([], []) := rfl
  refine ⟨by rw [hcre]; exact hmain.2.1, by rw [hcre]; exact hmain.1, ?_⟩
  intro n hn
  rw [hcre]
  rcases List.mem_map.mp hn with ⟨p, hp, hp2⟩
  have hp' : (p.1, n) ∈ ref := by
    obtain ⟨a, b⟩ := p
    simp only at hp2
    subst hp2
    exact hp
  have hkey : n ∈ dkeys (invertRef ref) := invertFold_key_of_decl p.1 n ref hp' []
  rcases List.mem_map.mp hkey with ⟨q, hq, hq1⟩
  have hk2 : q.1 ∈ dkeys ((invertRef ref).foldl (classStep ref) ([], [])).1 :=
    hmain.2.2 q hq
  rw [hq1] at hk2
  rcases dlookup_isSome_of_mem_dkeys hk2 with ⟨v, hv⟩
  have hvn : v = n := hmain.1 (n, v) (dlookup_mem hv)
  rw [hv, hvn]

theorem processLine_second {m2 : List (Int × Int)} {nid : Int} {rest : List Str}
    (hrest : rest ≠ [])
    (hgood : ∀ tk ∈ rest, tk ≠ [] ∧ ∀ c ∈ tk, isspace c = false)
    (hl : dlookup nid m2 = some nid) :
    processLine m2 [] (pyjoin (intToStr nid :: rest) ++ ['\n']) =
      .remapped (pyjoin (intToStr nid :: rest)) := by
  have htoks : ∀ tk ∈ intToStr nid :: rest, tk ≠ [] ∧ ∀ c ∈ tk, isspace c = false := by
    intro tk htk
    rcases List.mem_cons.mp htk with h' | h'
    · subst h'
      exact ⟨intToStr_ne_nil nid, fun c hc => intToStr_not_space hc⟩
    · exact hgood tk h'
  have hjoin_ne : pyjoin (intToStr nid :: rest) ≠ [] :=
    pyjoin_ne_nil (by simp) (fun t ht => (htoks t ht).1)
  have hstrip : pystrip (pyjoin (intToStr nid :: rest) ++ ['\n']) =
      pyjoin (intToStr nid :: rest) := by
    rw [pystrip_append_ws (by decide)]
    exact pystrip_eq_self (pyjoin_head_not_space htoks) (pyjoin_last_not_space htoks)
  have hsp : pysplit (pystrip (pyjoin (intToStr nid :: rest) ++ ['\n'])) =
      intToStr nid :: rest := by
    rw [hstrip]
    exact pysplit_pyjoin htoks
  have hb : pystrip (pyjoin (intToStr nid :: rest) ++ ['\n']) ≠ [] := by
    rw [hstrip]
    exact hjoin_ne
  exact processLine_remap m2 [] hb hsp hrest (pyParseInt_intToStr nid) (by simp) hl

theorem processLines_second {m2 : List (Int × Int)} {outs : List Str}
    (h : ∀ o ∈ outs, processLine m2 [] (o ++ ['\n']) = .remapped o) :
    processLines m2 [] (outs.map (fun o => o ++ ['\n'])) = (outs, outs.length, 0) := by
  induction outs with
  | nil => rfl
  | cons o os ih =>
    rw [List.map_cons, processLines_cons_remapped (h o (List.mem_cons_self _ _)),
      ih (fun x hx => h x (List.mem_cons_of_mem _ hx))]
    simp

theorem processLines_survivors {m : List (Int × Int)} {d : List Int} :
    ∀ ls : List Str, (∀ l ∈ ls, ∀ o, processLine m d l ≠ .kept o) →
      ∀ o ∈ (processLines m d ls).1, ∃ nid rest,
        rest ≠ [] ∧ (∀ tk ∈ rest, tk ≠ [] ∧ ∀ c ∈ tk, isspace c = false) ∧
        (∃ q ∈ m, Prod.snd q = nid) ∧ o = pyjoin (intToStr nid :: rest) := by
  intro ls
  induction ls with
  | nil =>
    intro _ o ho
    simp [processLines_nil] at ho
  | cons l ls ih =>
    intro h o ho
    rcases processLine_cases m d l with hc | ⟨p0, rest, cid, hsp, hrest, hp, hcc⟩
    · rw [processLines_cons_dropped hc] at ho
      exact ih (fun x hx => h x (List.mem_cons_of_mem _ hx)) o ho
    · rcases hcc with ⟨_, hc⟩ | ⟨_, nid, hm, hc⟩ | ⟨_, hm, hc⟩
      · rw [processLines_cons_removed hc] at ho
        exact ih (fun x hx => h x (List.mem_cons_of_mem _ hx)) o ho
      · rw [processLines_cons_remapped hc] at ho
        rcases List.mem_cons.mp ho with h' | h'
        · subst h'
          refine ⟨nid, rest, hrest, ?_, ⟨(cid, nid), dlookup_mem hm, rfl⟩, rfl⟩
          intro tk htk
          exact pysplit_tokens tk (by rw [hsp]; exact List.mem_cons_of_mem _ htk)
        · exact ih (fun x hx => h x (List.mem_cons_of_mem _ hx)) o h'
      · exact absurd hc (h l (List.mem_cons_self _ _) _)

theorem normalize_label_file_none (m : List (Int × Int)) (d : List Int)
    (dry : Bool) :
    normalize_label_file none m d dry =
      { file := none, num_remapped := 0, num_removed := 0 } := rfl

theorem normalize_label_file_some (c : Str) (m : List (Int × Int)) (d : List Int)
    (dry : Bool) :
    normalize_label_file (some c) m d dry =
      { file := if dry then some c
          else some (renderLines (processLines m d (pyreadlines c)).1)
        num_remapped := (processLines m d (pyreadlines c)).2.1
        num_removed := (processLines m d (pyreadlines c)).2.2 } := rfl

theorem label_file_second_run (ref : List (Str × Int))
    (hK : ∀ p ∈ ref, pystrip p.1 = p.1)
    (hD : ∀ p ∈ ref, p.1 ∉ DAMAGE_CLASSES)
    (hN : (dkeys ref).Nodup)
    (names1 : Option (List (Int × Str))) (c : Str)
    (hcover : ∀ l ∈ pyreadlines c, ∀ o,
      processLine (create_class_id_mapping names1 ref).1
        (create_class_id_mapping names1 ref).2 l ≠ .kept o) :
    normalize_label_file
        (normalize_label_file (some c) (create_class_id_mapping names1 ref).1
          (create_class_id_mapping names1 ref).2 false).file
        (create_class_id_mapping (some (invertRef ref)) ref).1
        (create_class_id_mapping (some (invertRef ref)) ref).2 false =
      { file := (normalize_label_file (some c) (create_class_id_mapping names1 ref).1
          (create_class_id_mapping names1 ref).2 false).file
        num_remapped := (processLines (create_class_id_mapping names1 ref).1
          (create_class_id_mapping names1 ref).2 (pyreadlines c)).1.length
        num_removed := 0 } := by
  obtain ⟨hd2, hid2, hlk2⟩ := create_inverted ref hK hD hN
  have hval : ∀ p ∈ (create_class_id_mapping names1 ref).1,
      Prod.snd p ∈ ref.map Prod.snd := by
    cases names1 with
    | none =>
      intro p hp
      simp [create_class_id_mapping] at hp
    | some ns => exact classFold_values ref ns ([], []) (by simp)
  have hsurv := processLines_survivors (pyreadlines c) hcover
  have hline : ∀ o ∈ (processLines (create_class_id_mapping names1 ref).1
      (create_class_id_mapping names1 ref).2 (pyreadlines c)).1,
      processLine (create_class_id_mapping (some (invertRef ref)) ref).1
        (create_class_id_mapping (some (invertRef ref)) ref).2 (o ++ ['\n']) =
        .remapped o := by
    intro o ho
    rcases hsurv o ho with ⟨nid, rest, hrest, hgood, ⟨q, hq, hq2⟩, rfl⟩
    rw [hd2]
    exact processLine_second hrest hgood (hlk2 nid (hq2 ▸ hval q hq))
  rw [normalize_label_file_some]
  simp only [Bool.false_eq_true, if_false]
  by_cases houts : (processLines (create_class_id_mapping names1 ref).1
      (create_class_id_mapping names1 ref).2 (pyreadlines c)).1 = []
  · rw [houts]
    rw [show renderLines [] = ([] : Str) from rfl]
    rw [normalize_label_file_some]
    rw [show pyreadlines [] = ([] : List Str) from rfl, processLines_nil]
    simp [renderLines, joinNL]
  · have hnl : ∀ o ∈ (processLines (create_class_id_mapping names1 ref).1
        (create_class_id_mapping names1 ref).2 (pyreadlines c)).1, '\n' ∉ o := by
      intro o ho
      rcases hsurv o ho with ⟨nid, rest, hrest, hgood, _, rfl⟩
      apply pyjoin_no_newline
      intro tk htk
      rcases List.mem_cons.mp htk with h' | h'
      · subst h'
        exact fun x hx => intToStr_not_space hx
      · exact (hgood tk h').2
    rw [normalize_label_file_some, pyreadlines_render hnl houts, hd2,
      processLines_second (fun o ho => hd2 ▸ hline o ho)]
    simp

theorem normalize_annotation_file_none {std : List (Str × Category)} {doc : AnnDoc}
    (dry : Bool) (h : doc.categories = none) :
    normalize_annotation_file std doc dry =
      { file := doc
        stats := { categories_found := 0, categories_normalized := 0
                   annotations_updated := 0, unmapped_categories := [] } } := by
  simp only [normalize_annotation_file, h]

theorem normalize_annotation_file_some {std : List (Str × Category)} {doc : AnnDoc}
    {cats : List Category} (dry : Bool) (h : doc.categories = some cats) :
    normalize_annotation_file std doc dry =
      { file := if dry then doc else
          { categories := some (sortById (dvalues std))
            annotations := if doc.annotations.isSome then
              some (((doc.annotations.getD []).map
                (updateAnn (cocoBuild std cats).1)).map Prod.fst)
            else none
            rest := doc.rest }
        stats := { categories_found := cats.length
                   categories_normalized := (cocoBuild std cats).2.1
                   annotations_updated :=
                     (((doc.annotations.getD []).map
                       (updateAnn (cocoBuild std cats).1)).filter (fun p => p.2)).length
                   unmapped_categories := (cocoBuild std cats).2.2 } } := by
  simp only [normalize_annotation_file, h]

theorem coco_second_run (L : List Category) (doc : AnnDoc) :
    (normalize_annotation_file (load_standard_categories L)
      (normalize_annotation_file (load_standard_categories L) doc false).file
      false).file =
      (normalize_annotation_file (load_standard_categories L) doc false).file ∧
    (normalize_annotation_file (load_standard_categories L)
      (normalize_annotation_file (load_standard_categories L) doc false).file
      false).stats.categories_normalized =
      (normalize_annotation_file (load_standard_categories L)
        (normalize_annotation_file (load_standard_categories L) doc false).file
        false).stats.categories_found ∧
    (normalize_annotation_file (load_standard_categories L)
      (normalize_annotation_file (load_standard_categories L) doc false).file
      false).stats.unmapped_categories = [] := by
  cases hcat : doc.categories with
  | none =>
    simp [normalize_annotation_file_none false hcat]
  | some cats =>
    have e1 := @normalize_annotation_file_some (load_standard_categories L) doc
      cats false hcat
    rw [e1]
    simp only [Bool.false_eq_true, if_false]
    have hall : ∀ c ∈ sortById (dvalues (load_standard_categories L)),
        ∃ stdc, dlookup (pystrip c.name) (load_standard_categories L) = some stdc ∧
          stdc.id = c.id := by
      intro c hc
      exact ⟨c, loadStd_lookup_self (mem_sortById.mp hc), rfl⟩
    obtain ⟨hid2, hcnt2, hunm2⟩ := cocoFold_identity (load_standard_categories L)
      (sortById (dvalues (load_standard_categories L))) hall ([], 0, []) (by simp)
    have hbuild : cocoBuild (load_standard_categories L)
        (sortById (dvalues (load_standard_categories L))) =
        (sortById (dvalues (load_standard_categories L))).foldl
          (cocoStep (load_standard_categories L)) ([], 0, []) := rfl
    rw [← hbuild] at hid2 hcnt2 hunm2
    cases hanns : doc.annotations with
    | none =>
      have e2 := @normalize_annotation_file_some (load_standard_categories L)
        { categories := some (sortById (dvalues (load_standard_categories L)))
          annotations := none, rest := doc.rest }
        (sortById (dvalues (load_standard_categories L))) false rfl
      simp only [hanns, Option.isSome_none, Bool.false_eq_true, if_false] at e1 ⊢
      rw [e2]
      simp only [Bool.false_eq_true, if_false, Option.isSome_none, Option.getD_none,
        List.map_nil, List.filter_nil, List.length_nil]
      refine ⟨by trivial, ?_, ?_⟩
      · rw [hcnt2]
        simp
      · exact hunm2
    | some as =>
      have e2 := @normalize_annotation_file_some (load_standard_categories L)
        { categories := some (sortById (dvalues (load_standard_categories L)))
          annotations := some (((as.map
            (updateAnn (cocoBuild (load_standard_categories L) cats).1)).map Prod.fst))
          rest := doc.rest }
        (sortById (dvalues (load_standard_categories L))) false rfl
      simp only [hanns, Option.isSome_some, if_true, Option.getD_some] at e1 ⊢
      rw [e2]
      simp only [Bool.false_eq_true, if_false, Option.isSome_some, if_true,
        Option.getD_some]
      have hmapid : ∀ xs : List AnnRec,
          ((xs.map (updateAnn (cocoBuild (load_standard_categories L)
            (sortById (dvalues (load_standard_categories L)))).1)).map Prod.fst) = xs := by
        intro xs
        rw [List.map_map]
        exact map_self (fun a ha => updateAnn_identity hid2 a)
      refine ⟨?_, ?_, ?_⟩
      · rw [hmapid]
      · rw [hcnt2]
        simp
      · exact hunm2

theorem nodup_fst_eq {α β : Type} {l : List (α × β)} (hnd : (l.map Prod.fst).Nodup)
    {k : α} {v v' : β} (h : (k, v) ∈ l) (h' : (k, v') ∈ l) : v = v' := by
  induction l with
  | nil => simp at h
  | cons p ps ih =>
    simp only [List.map_cons, List.nodup_cons] at hnd
    rcases List.mem_cons.mp h with he | he <;> rcases List.mem_cons.mp h' with he' | he'
    · rw [← he] at he'
      exact (Prod.mk.injEq .. ▸ he').2.symm
    · exfalso
      apply hnd.1
      rw [← he]
      exact List.mem_map.mpr ⟨(k, v'), he', rfl⟩
    · exfalso
      apply hnd.1
      rw [← he']
      exact List.mem_map.mpr ⟨(k, v), he, rfl⟩
    · exact ih hnd.2 he he'

theorem classFold_keys_origin (ref : List (Str × Int)) :
    ∀ ns : List (Int × Str), ∀ acc : List (Int × Int) × List Int, ∀ x : Int,
      x ∈ dkeys (ns.foldl (classStep ref) acc).1 →
      x ∈ dkeys acc.1 ∨ ∃ nm, (x, nm) ∈ ns ∧ pystrip nm ∉ DAMAGE_CLASSES := by
  intro ns
  induction ns with
  | nil => intro acc x h; exact Or.inl h
  | cons p ps ih =>
    obtain ⟨pi, pn⟩ := p
    intro acc x h
    rw [List.foldl_cons] at h
    rcases ih _ x h with h' | ⟨nm, hnm, hdam⟩
    · by_cases hd : pystrip pn ∈ DAMAGE_CLASSES
      · simp only [classStep, if_pos hd] at h'
        exact Or.inl h'
      · cases hl : dlookup (pystrip pn) ref with
        | some nid =>
          simp only [classStep, if_neg hd, hl] at h'
          rcases List.mem_map.mp h' with ⟨q, hq, hq1⟩
          rcases mem_dinsert hq with he | he
          · right
            refine ⟨pn, ?_, hd⟩
            rw [he] at hq1
            simp only at hq1
            rw [← hq1]
            exact List.mem_cons_self _ _
          · exact Or.inl (List.mem_map.mpr ⟨q, he, hq1⟩)
        | none =>
          simp only [classStep, if_neg hd, hl] at h'
          exact Or.inl h'
    · exact Or.inr ⟨nm, List.mem_cons_of_mem _ hnm, hdam⟩

theorem processLine_ne_kept_all {m : List (Int × Int)} {d : List Int} {l : Str}
    (h : processLine m d l ≠ .kept (pystrip l)) :
    ∀ o, processLine m d l ≠ .kept o := by
  intro o ho
  rcases processLine_cases m d l with hc | ⟨p0, rest, cid, hsp, hrest, hp, hcc⟩
  · rw [ho] at hc
    exact LineResult.noConfusion hc
  · rcases hcc with ⟨_, hc⟩ | ⟨_, nid, _, hc⟩ | ⟨_, _, hc⟩
    · rw [ho] at hc
      exact LineResult.noConfusion hc
    · rw [ho] at hc
      exact LineResult.noConfusion hc
    · exact h hc

/-! ## Claim theorems -/

/-- C3: a label line whose leading token parses as a local class ID in the
remap table (and not a damage ID) is rewritten with only the leading token
replaced by the canonical ID; re-splitting the rewritten line yields exactly
the canonical-ID token followed by the original geometry tokens, unchanged. -/
theorem C3_remap_preserves_geometry (m : List (Int × Int)) (d : List Int)
    (line : Str) (p0 : Str) (rest : List Str) (cid nid : Int)
    (hsp : pysplit (pystrip line) = p0 :: rest) (hrest : rest ≠ [])
    (hp : pyParseInt p0 = some cid) (hd : cid ∉ d)
    (hm : dlookup cid m = some nid) :
    processLine m d line = .remapped (pyjoin (intToStr nid :: rest)) ∧
    pysplit (pyjoin (intToStr nid :: rest)) = intToStr nid :: rest := by
  have hb : pystrip line ≠ [] := by
    intro he
    rw [he] at hsp
    simp [pysplit, pysplitAux] at hsp
  have hgood : ∀ tk ∈ intToStr nid :: rest, tk ≠ [] ∧ ∀ c ∈ tk, isspace c = false := by
    intro tk htk
    rcases List.mem_cons.mp htk with h' | h'
    · subst h'
      exact ⟨intToStr_ne_nil nid, fun c hc => intToStr_not_space hc⟩
    · exact pysplit_tokens tk (by rw [hsp]; exact List.mem_cons_of_mem _ h')
  exact ⟨processLine_remap m d hb hsp hrest hp hd hm, pysplit_pyjoin hgood⟩

/-- C3 witness: the claim's two scenarios.  Local ID 3 mapped to canonical 7
turns "3 0.1 0.2 0.3 0.4" into "7 0.1 0.2 0.3 0.4"; and with canonical
mapping bumper=0, door=1 against a dataset declaring door=0, bumper=1, the
built table swaps 0 and 1 and the label lines are rewritten accordingly. -/
theorem C3_remap_preserves_geometry_witness :
    (pysplit (pystrip "3 0.1 0.2 0.3 0.4\n".data) =
      "3".data :: ["0.1".data, "0.2".data, "0.3".data, "0.4".data] ∧
     pyParseInt "3".data = some 3 ∧ (3 : Int) ∉ ([] : List Int) ∧
     dlookup (3 : Int) [((3 : Int), (7 : Int))] = some 7) ∧
    (processLine [((3 : Int), (7 : Int))] [] "3 0.1 0.2 0.3 0.4\n".data =
      .remapped (pyjoin (intToStr 7 ::
        ["0.1".data, "0.2".data, "0.3".data, "0.4".data])) ∧
     pysplit (pyjoin (intToStr 7 ::
       ["0.1".data, "0.2".data, "0.3".data, "0.4".data])) =
       intToStr 7 :: ["0.1".data, "0.2".data, "0.3".data, "0.4".data]) ∧
    pyjoin (intToStr 7 :: ["0.1".data, "0.2".data, "0.3".data, "0.4".data]) =
      "7 0.1 0.2 0.3 0.4".data ∧
    (create_class_id_mapping (some [(0, "door".data), (1, "bumper".data)])
      (load_reference_mapping [(0, "bumper".data), (1, "door".data)])).1 =
      [(0, 1), (1, 0)] ∧
    (normalize_label_file (some "0 0.5 0.5\n1 0.2 0.2\n".data)
      (create_class_id_mapping (some [(0, "door".data), (1, "bumper".data)])
        (load_reference_mapping [(0, "bumper".data), (1, "door".data)])).1
      (create_class_id_mapping (some [(0, "door".data), (1, "bumper".data)])
        (load_reference_mapping [(0, "bumper".data), (1, "door".data)])).2
      false).file = some "1 0.5 0.5\n0 0.2 0.2\n".data :=
  ⟨⟨by decide, by decide, by decide, by decide⟩,
   C3_remap_preserves_geometry [((3 : Int), (7 : Int))] [] "3 0.1 0.2 0.3 0.4\n".data
     "3".data ["0.1".data, "0.2".data, "0.3".data, "0.4".data] 3 7
     (by decide) (by decide) (by decide) (by decide) (by decide),
   by decide, by decide, by decide⟩

/-- C4: when a locally declared class name is a damage name, removal takes
precedence even if the name is also canonical: `create_class_id_mapping`
records the local ID only in the damage list and never as a remap-table key,
and `normalize_label_file` drops (never remaps) every line led by that ID. -/
theorem C4_damage_precedence (ref : List (Str × Int)) (ns : List (Int × Str))
    (i : Int) (nm : Str) (hmem : (i, nm) ∈ ns)
    (hdam : pystrip nm ∈ DAMAGE_CLASSES) (hnd : (ns.map Prod.fst).Nodup)
    (line : Str) (p0 : Str) (rest : List Str)
    (hsp : pysplit (pystrip line) = p0 :: rest) (hrest : rest ≠ [])
    (hp : pyParseInt p0 = some i) :
    i ∈ (create_class_id_mapping (some ns) ref).2 ∧
    i ∉ dkeys (create_class_id_mapping (some ns) ref).1 ∧
    processLine (create_class_id_mapping (some ns) ref).1
      (create_class_id_mapping (some ns) ref).2 line = .removed := by
  have hin : i ∈ (create_class_id_mapping (some ns) ref).2 :=
    classFold_damage_of_decl ref i nm ns hmem hdam ([], [])
  have hnotkey : i ∉ dkeys (create_class_id_mapping (some ns) ref).1 := by
    intro hk
    rcases classFold_keys_origin ref ns ([], []) i hk with h' | ⟨nm', hnm', hdam'⟩
    · simp [dkeys] at h'
    · exact hdam' (nodup_fst_eq hnd hnm' hmem ▸ hdam)
  have hb : pystrip line ≠ [] := by
    intro he
    rw [he] at hsp
    simp [pysplit, pysplitAux] at hsp
  exact ⟨hin, hnotkey,
    processLine_damage _ _ hb hsp hrest hp hin⟩

/-- C4 witness: the claim's scenario forced — the damage name "Vỡ, nứt" is
declared at local ID 4 and also present in the canonical mapping; ID 4 still
lands only in the damage list and the line "4 0.5 0.5" is removed. -/
theorem C4_damage_precedence_witness :
    ((4, "Vỡ, nứt".data) ∈ [((4 : Int), "Vỡ, nứt".data)] ∧
     pystrip "Vỡ, nứt".data ∈ DAMAGE_CLASSES ∧
     pysplit (pystrip "4 0.5 0.5\n".data) = "4".data :: ["0.5".data, "0.5".data] ∧
     pyParseInt "4".data = some 4) ∧
    (4 : Int) ∈ (create_class_id_mapping (some [((4 : Int), "Vỡ, nứt".data)])
      (load_reference_mapping [(0, "Vỡ, nứt".data)])).2 ∧
    (4 : Int) ∉ dkeys (create_class_id_mapping (some [((4 : Int), "Vỡ, nứt".data)])
      (load_reference_mapping [(0, "Vỡ, nứt".data)])).1 ∧
    processLine (create_class_id_mapping (some [((4 : Int), "Vỡ, nứt".data)])
        (load_reference_mapping [(0, "Vỡ, nứt".data)])).1
      (create_class_id_mapping (some [((4 : Int), "Vỡ, nứt".data)])
        (load_reference_mapping [(0, "Vỡ, nứt".data)])).2
      "4 0.5 0.5\n".data = .removed :=
  ⟨⟨by decide, by decide, by decide, by decide⟩,
   C4_damage_precedence (load_reference_mapping [(0, "Vỡ, nứt".data)])
     [((4 : Int), "Vỡ, nứt".data)] 4 "Vỡ, nứt".data (by decide) (by decide)
     (by decide) "4 0.5 0.5\n".data "4".data ["0.5".data, "0.5".data]
     (by decide) (by decide) (by decide)⟩

/-- C8: a line with fewer than two whitespace-delimited tokens, or whose
leading token does not parse as an integer, is dropped without an error
(the loop body is total) and contributes to neither counter: processing any
file with the malformed line equals processing the file without it. -/
theorem C8_malformed_dropped (m : List (Int × Int)) (d : List Int) (line : Str)
    (h : (pysplit (pystrip line)).length < 2 ∨
      ∃ p0 rest, pysplit (pystrip line) = p0 :: rest ∧ rest ≠ [] ∧
        pyParseInt p0 = none) :
    processLine m d line = .dropped ∧
    ∀ pre post : List Str,
      processLines m d (pre ++ line :: post) = processLines m d (pre ++ post) := by
  have hdrop : processLine m d line = .dropped := by
    by_cases hb : pystrip line = []
    · exact processLine_blank m d hb
    · rcases h with h | ⟨p0, rest, hsp, hrest, hp⟩
      · exact processLine_short m d hb rfl h
      · exact processLine_noparse m d hb hsp hrest hp
  refine ⟨hdrop, ?_⟩
  intro pre post
  rw [processLines_append, processLines_append, processLines_cons_dropped hdrop]

/-- C8 witness: the line "abc 0.1" (non-numeric leading token) is dropped and
uncounted, as is "7" (a single numeric token). -/
theorem C8_malformed_dropped_witness :
    ((∃ p0 rest, pysplit (pystrip "abc 0.1\n".data) = p0 :: rest ∧ rest ≠ [] ∧
        pyParseInt p0 = none) ∧
     (pysplit (pystrip "7\n".data)).length < 2) ∧
    processLine [((0 : Int), (1 : Int))] [] "abc 0.1\n".data = .dropped ∧
    processLines [((0 : Int), (1 : Int))] [] ["0 1 2\n".data, "abc 0.1\n".data] =
      processLines [((0 : Int), (1 : Int))] [] ["0 1 2\n".data] ∧
    processLine [((0 : Int), (1 : Int))] [] "7\n".data = .dropped :=
  ⟨⟨⟨"abc".data, ["0.1".data], by decide, by decide, by decide⟩, by decide⟩,
   (C8_malformed_dropped [((0 : Int), (1 : Int))] [] "abc 0.1\n".data
     (Or.inr ⟨"abc".data, ["0.1".data], by decide, by decide, by decide⟩)).1,
   by
     have h := C8_malformed_dropped [((0 : Int), (1 : Int))] [] "abc 0.1\n".data
       (Or.inr ⟨"abc".data, ["0.1".data], by decide, by decide, by decide⟩)
     have := h.2 ["0 1 2\n".data] []
     simpa using this,
   by decide⟩

/-- C9: without preview mode, the label file is overwritten with exactly the
surviving lines; the content ends in a newline whenever any line survives,
and an empty survivor set yields an empty (not deleted) file. -/
theorem C9_write_semantics (c : Str) (m : List (Int × Int)) (d : List Int) :
    (normalize_label_file (some c) m d false).file =
      some (renderLines (processLines m d (pyreadlines c)).1) ∧
    ((processLines m d (pyreadlines c)).1 = [] →
      (normalize_label_file (some c) m d false).file = some []) ∧
    ((processLines m d (pyreadlines c)).1 ≠ [] →
      ∃ s : Str, (normalize_label_file (some c) m d false).file =
        some (s ++ ['\n'])) := by
  refine ⟨?_, ?_, ?_⟩
  · rw [normalize_label_file_some]
    simp
  · intro he
    rw [normalize_label_file_some]
    simp [he, renderLines, joinNL]
  · intro hne
    refine ⟨joinNL (processLines m d (pyreadlines c)).1, ?_⟩
    rw [normalize_label_file_some]
    simp [renderLines, List.isEmpty_eq_true, hne]

/-- C9 witness: a file whose only line is malformed is overwritten with empty
content (the file is written, not deleted), and a surviving line yields
newline-terminated content. -/
theorem C9_write_semantics_witness :
    ((processLines [] [] (pyreadlines "x\n".data)).1 = [] ∧
     (normalize_label_file (some "x\n".data) [] [] false).file = some []) ∧
    ((processLines [] [] (pyreadlines "5 1\n".data)).1 ≠ [] ∧
     ∃ s : Str, (normalize_label_file (some "5 1\n".data) [] [] false).file =
       some (s ++ ['\n'])) :=
  ⟨⟨by decide, (C9_write_semantics "x\n".data [] []).2.1 (by decide)⟩,
   ⟨by decide, (C9_write_semantics "5 1\n".data [] []).2.2 (by decide)⟩⟩

/-- C10: an annotation document without a `categories` key yields the all-zero
statistics record and the file is left untouched even when `dry_run` is
false. -/
theorem C10_missing_categories (std : List (Str × Category)) (doc : AnnDoc)
    (dry : Bool) (h : doc.categories = none) :
    normalize_annotation_file std doc dry =
      { file := doc
        stats := { categories_found := 0, categories_normalized := 0
                   annotations_updated := 0, unmapped_categories := [] } } :=
  normalize_annotation_file_none dry h

/-- C10 witness: a concrete document with annotations but no category list is
returned untouched with zero statistics, with `dry_run = false`. -/
theorem C10_missing_categories_witness :
    (AnnDoc.categories ⟨none, some [⟨some 5, 0⟩], 3⟩ = none) ∧
    normalize_annotation_file (load_standard_categories [⟨0, "bumper".data⟩])
      ⟨none, some [⟨some 5, 0⟩], 3⟩ false =
      { file := ⟨none, some [⟨some 5, 0⟩], 3⟩
        stats := { categories_found := 0, categories_normalized := 0
                   annotations_updated := 0, unmapped_categories := [] } } :=
  ⟨rfl, C10_missing_categories (load_standard_categories [⟨0, "bumper".data⟩])
    ⟨none, some [⟨some 5, 0⟩], 3⟩ false rfl⟩

/-- C7: the rewritten manifest is a function of the canonical reference
mapping alone — identical for any two datasets — and declares exactly the
inverted canonical mapping plus the two fixed split paths. -/
theorem C7_manifest_independent (d1 d2 : ManifestDoc) (ref : List (Str × Int)) :
    normalize_data_yaml d1 ref false = normalize_data_yaml d2 ref false ∧
    normalize_data_yaml d1 ref false =
      { train := some "images/train".data
        val := some "images/val".data
        names := some (invertRef ref)
        extra := 0 } :=
  ⟨rfl, rfl⟩

/-- C5: dry-run mode leaves every file untouched while returning exactly the
statistics of the non-dry-run execution, for both reconcilers, the manifest
rewrite and the whole-dataset driver. -/
theorem C5_dry_run_frame (std : List (Str × Category)) (doc : AnnDoc)
    (content : Option Str) (m : List (Int × Int)) (d : List Int)
    (mdoc : ManifestDoc) (ref : List (Str × Int)) (st : DatasetState) :
    (normalize_annotation_file std doc true).file = doc ∧
    (normalize_annotation_file std doc true).stats =
      (normalize_annotation_file std doc false).stats ∧
    (normalize_label_file content m d true).file = content ∧
    (normalize_label_file content m d true).num_remapped =
      (normalize_label_file content m d false).num_remapped ∧
    (normalize_label_file content m d true).num_removed =
      (normalize_label_file content m d false).num_removed ∧
    normalize_data_yaml mdoc ref true = mdoc ∧
    (normalize_dataset st ref true).state.labels = st.labels ∧
    (normalize_dataset st ref true).annotations_remapped =
      (normalize_dataset st ref false).annotations_remapped ∧
    (normalize_dataset st ref true).annotations_removed =
      (normalize_dataset st ref false).annotations_removed := by
  have hcoco1 : (normalize_annotation_file std doc true).file = doc := by
    cases hcat : doc.categories with
    | none => rw [normalize_annotation_file_none true hcat]
    | some cats =>
      rw [normalize_annotation_file_some true hcat]
      simp
  have hcoco2 : (normalize_annotation_file std doc true).stats =
      (normalize_annotation_file std doc false).stats := by
    cases hcat : doc.categories with
    | none =>
      rw [normalize_annotation_file_none true hcat,
        normalize_annotation_file_none false hcat]
    | some cats =>
      rw [normalize_annotation_file_some true hcat,
        normalize_annotation_file_some false hcat]
  have hlab : ∀ (m' : List (Int × Int)) (d' : List Int) (cc : Option Str),
      (normalize_label_file cc m' d' true).file = cc ∧
      (normalize_label_file cc m' d' true).num_remapped =
        (normalize_label_file cc m' d' false).num_remapped ∧
      (normalize_label_file cc m' d' true).num_removed =
        (normalize_label_file cc m' d' false).num_removed := by
    intro m' d' cc
    cases cc with
    | none => exact ⟨rfl, rfl, rfl⟩
    | some c =>
      rw [normalize_label_file_some, normalize_label_file_some]
      exact ⟨rfl, rfl, rfl⟩
  refine ⟨hcoco1, hcoco2, (hlab m d content).1, (hlab m d content).2.1,
    (hlab m d content).2.2, rfl, ?_, ?_, ?_⟩
  · simp only [normalize_dataset, List.map_map]
    exact map_self (fun c hc => (hlab _ _ c).1)
  · simp only [normalize_dataset, List.map_map]
    congr 1
    exact List.map_congr_left (fun c hc => (hlab _ _ c).2.1)
  · simp only [normalize_dataset, List.map_map]
    congr 1
    exact List.map_congr_left (fun c hc => (hlab _ _ c).2.2)

/-- C6 counterexample: a kept line is NOT preserved byte-for-byte — the code
appends the whitespace-stripped line.  With empty mapping and damage list, the
file " 5  0.1\n" (leading space) is rewritten to "5  0.1\n": the surviving
line's bytes differ from its bytes in the input, though it was counted in
neither statistic. -/
theorem C6_counterexample :
    processLine [] [] " 5  0.1\n".data = .kept "5  0.1".data ∧
    "5  0.1".data ≠ " 5  0.1".data ∧
    normalize_label_file (some " 5  0.1\n".data) [] [] false =
      { file := some "5  0.1\n".data, num_remapped := 0, num_removed := 0 } ∧
    some "5  0.1\n".data ≠ some " 5  0.1\n".data := by
  refine ⟨by decide, by decide, by decide, by decide⟩

/-- C6 (amended): a label line whose parsed leading ID is neither a damage ID
nor a remap-table key is kept as the STRIPPED line byte-for-byte (interior
bytes, including interior whitespace, unchanged; only leading/trailing
whitespace removed), and the line is counted in neither statistic. -/
theorem C6_unmapped_kept_stripped (m : List (Int × Int)) (d : List Int)
    (line : Str) (p0 : Str) (rest : List Str) (cid : Int)
    (hsp : pysplit (pystrip line) = p0 :: rest) (hrest : rest ≠ [])
    (hp : pyParseInt p0 = some cid) (hd : cid ∉ d)
    (hm : dlookup cid m = none) :
    processLine m d line = .kept (pystrip line) ∧
    ∀ ls : List Str,
      processLines m d (line :: ls) =
        (pystrip line :: (processLines m d ls).1,
          (processLines m d ls).2.1, (processLines m d ls).2.2) := by
  have hb : pystrip line ≠ [] := by
    intro he
    rw [he] at hsp
    simp [pysplit, pysplitAux] at hsp
  have hkeep := processLine_keep m d hb hsp hrest hp hd hm
  exact ⟨hkeep, fun ls => processLines_cons_kept hkeep ls⟩

/-- C6 witness: the line "5  0.1" with ID 5 unmapped is kept with its interior
double space intact and counted in neither statistic. -/
theorem C6_unmapped_kept_stripped_witness :
    (pysplit (pystrip " 5  0.1\n".data) = "5".data :: ["0.1".data] ∧
     pyParseInt "5".data = some 5 ∧ (5 : Int) ∉ ([] : List Int) ∧
     dlookup (5 : Int) ([] : List (Int × Int)) = none) ∧
    (processLine [] [] " 5  0.1\n".data = .kept (pystrip " 5  0.1\n".data) ∧
     ∀ ls : List Str,
       processLines [] [] (" 5  0.1\n".data :: ls) =
         (pystrip " 5  0.1\n".data :: (processLines [] [] ls).1,
           (processLines [] [] ls).2.1, (processLines [] [] ls).2.2)) ∧
    pystrip " 5  0.1\n".data = "5  0.1".data :=
  ⟨⟨by decide, by decide, by decide, by decide⟩,
   C6_unmapped_kept_stripped [] [] " 5  0.1\n".data "5".data ["0.1".data] 5
     (by decide) (by decide) (by decide) (by decide) (by decide),
   by decide⟩

/-- C1 counterexample: with canonical set {bumper: 0} and a dataset declaring
an empty category list, the annotation referencing the undeclared local ID 5
survives the rewrite unchanged while the unmapped report stays empty, and 5
is not a canonical ID: an unreported stale reference survives. -/
theorem C1_counterexample :
    (normalize_annotation_file (load_standard_categories [⟨0, "bumper".data⟩])
      ⟨some [], some [⟨some 5, 7⟩], 0⟩ false).file.annotations =
      some [⟨some 5, 7⟩] ∧
    (normalize_annotation_file (load_standard_categories [⟨0, "bumper".data⟩])
      ⟨some [], some [⟨some 5, 7⟩], 0⟩ false).stats.unmapped_categories = [] ∧
    (dvalues (load_standard_categories [⟨0, "bumper".data⟩])).map Category.id =
      [0] ∧
    ¬((5 : Int) ∈ ([0] : List Int)) :=
  ⟨by decide, by decide, by decide, by decide⟩

/-- C1 (amended): the reconciliation guarantee holds for DECLARED references.
COCO: every surviving annotation reference is a canonical ID, or is reported
in the unmapped list, or was never declared in the dataset's own category
list (undeclared references pass through unchanged and unreported).  YOLO:
every remapped line carries a canonical ID; every kept line's ID is outside
the remap table and the damage list, and if it was declared in the manifest
it appears in the warning log. -/
theorem C1_declared_refs_reconciled (L : List Category) (doc : AnnDoc)
    (cats : List Category) (hcat : doc.categories = some cats)
    (ref : List (Str × Int)) (ns : List (Int × Str)) :
    (∀ a ∈ ((normalize_annotation_file (load_standard_categories L) doc
        false).file.annotations).getD [],
      ∀ cnew, a.category_id = some cnew →
        cnew ∈ (dvalues (load_standard_categories L)).map Category.id ∨
        (∃ nm, (cnew, nm) ∈ (normalize_annotation_file (load_standard_categories L)
          doc false).stats.unmapped_categories) ∨
        cnew ∉ cats.map Category.id) ∧
    (∀ line o, processLine (create_class_id_mapping (some ns) ref).1
        (create_class_id_mapping (some ns) ref).2 line = .remapped o →
      ∃ nid rest, o = pyjoin (intToStr nid :: rest) ∧ nid ∈ ref.map Prod.snd) ∧
    (∀ line o, processLine (create_class_id_mapping (some ns) ref).1
        (create_class_id_mapping (some ns) ref).2 line = .kept o →
      ∃ p0 rest cid, pysplit o = p0 :: rest ∧ pyParseInt p0 = some cid ∧
        cid ∉ dkeys (create_class_id_mapping (some ns) ref).1 ∧
        cid ∉ (create_class_id_mapping (some ns) ref).2 ∧
        ∀ nm, (cid, nm) ∈ ns → (cid, nm) ∈ class_id_warnings (some ns) ref) := by
  refine ⟨?_, ?_, ?_⟩
  · intro a ha cnew hid
    rw [normalize_annotation_file_some false hcat] at ha ⊢
    simp only [Bool.false_eq_true, if_false] at ha ⊢
    cases hanns : doc.annotations with
    | none =>
      rw [hanns] at ha
      simp at ha
    | some as =>
      rw [hanns] at ha
      simp only [Option.isSome_some, if_true, Option.getD_some, List.map_map,
        List.mem_map] at ha
      rcases ha with ⟨x, hx, hxa⟩
      cases hcid : x.category_id with
      | none =>
        have : a = x := by
          rw [← hxa]
          simp [updateAnn, hcid]
        rw [this, hcid] at hid
        exact Option.noConfusion hid
      | some c0 =>
        cases hl : dlookup c0 (cocoBuild (load_standard_categories L) cats).1 with
        | none =>
          have hax : a = x := by
            rw [← hxa]
            simp [updateAnn, hcid, hl]
          rw [hax, hcid] at hid
          have hc0 : cnew = c0 := (Option.some.injEq .. ▸ hid).symm
          subst hc0
          right; right
          intro hdecl
          rcases List.mem_map.mp hdecl with ⟨cc, hcc, hccid⟩
          have hkey : cnew ∈ dkeys (cocoBuild (load_standard_categories L) cats).1 := by
            rw [← hccid]
            exact cocoFold_declared_key (load_standard_categories L) cc cats hcc _
          rcases dlookup_isSome_of_mem_dkeys hkey with ⟨v, hv⟩
          rw [hv] at hl
          exact Option.noConfusion hl
        | some n =>
          have han : a.category_id = some n := by
            rw [← hxa]
            simp [updateAnn, hcid, hl]
          rw [han] at hid
          have hn : cnew = n := (Option.some.injEq .. ▸ hid).symm
          subst hn
          rcases cocoFold_table_inv (load_standard_categories L) cats ([], 0, [])
            (by simp) (c0, cnew) (dlookup_mem hl) with h' | ⟨he, nm, hnm⟩
          · exact Or.inl h'
          · right; left
            refine ⟨nm, ?_⟩
            simp only at he hnm
            rw [he]
            exact hnm
  · intro line o hres
    rcases processLine_cases (create_class_id_mapping (some ns) ref).1
      (create_class_id_mapping (some ns) ref).2 line with
      hc | ⟨p0, rest, cid, hsp, hrest, hp, hcc⟩
    · rw [hres] at hc
      exact LineResult.noConfusion hc
    · rcases hcc with ⟨_, hc⟩ | ⟨_, nid, hm, hc⟩ | ⟨_, _, hc⟩
      · rw [hres] at hc
        exact LineResult.noConfusion hc
      · rw [hres] at hc
        have ho : o = pyjoin (intToStr nid :: rest) := by
          injection hc
        exact ⟨nid, rest, ho,
          classFold_values ref ns ([], []) (by simp) (cid, nid) (dlookup_mem hm)⟩
      · rw [hres] at hc
        exact LineResult.noConfusion hc
  · intro line o hres
    rcases processLine_cases (create_class_id_mapping (some ns) ref).1
      (create_class_id_mapping (some ns) ref).2 line with
      hc | ⟨p0, rest, cid, hsp, hrest, hp, hcc⟩
    · rw [hres] at hc
      exact LineResult.noConfusion hc
    · rcases hcc with ⟨_, hc⟩ | ⟨_, nid, _, hc⟩ | ⟨hdam, hm, hc⟩
      · rw [hres] at hc
        exact LineResult.noConfusion hc
      · rw [hres] at hc
        exact LineResult.noConfusion hc
      · rw [hres] at hc
        have ho : o = pystrip line := by
          injection hc
        subst ho
        refine ⟨p0, rest, cid, hsp, hp, ?_, hdam, ?_⟩
        · intro hkey
          rcases dlookup_isSome_of_mem_dkeys hkey with ⟨v, hv⟩
          rw [hv] at hm
          exact Option.noConfusion hm
        · intro nm hnm
          by_cases hdnm : pystrip nm ∈ DAMAGE_CLASSES
          · exact absurd (classFold_damage_of_decl ref cid nm ns hnm hdnm ([], []))
              hdam
          cases hlr : dlookup (pystrip nm) ref with
          | some nid =>
            exfalso
            have hkey := classFold_key_of_decl ref cid nm ns hnm hdnm nid hlr ([], [])
            rcases dlookup_isSome_of_mem_dkeys hkey with ⟨v, hv⟩
            have hv' : dlookup cid (create_class_id_mapping (some ns) ref).1 =
              some v := hv
            rw [hm] at hv'
            exact Option.noConfusion hv'
          | none =>
            exact warnFold_of_decl ref cid nm ns hnm hdnm hlr []

/-- C1 witness: a dataset declaring an unmapped name "door" at local ID 1
keeps that annotation with ID 1 reported unmapped; remapped and kept label
lines behave as the amended claim states, instantiated at a one-entry
reference mapping. -/
theorem C1_declared_refs_reconciled_witness :
    (AnnDoc.categories ⟨some [⟨1, "door".data⟩], some [⟨some 1, 0⟩], 0⟩ =
      some [⟨1, "door".data⟩]) ∧
    ((∀ a ∈ ((normalize_annotation_file (load_standard_categories [⟨0, "bumper".data⟩])
        ⟨some [⟨1, "door".data⟩], some [⟨some 1, 0⟩], 0⟩
        false).file.annotations).getD [],
      ∀ cnew, a.category_id = some cnew →
        cnew ∈ (dvalues (load_standard_categories [⟨0, "bumper".data⟩])).map
          Category.id ∨
        (∃ nm, (cnew, nm) ∈ (normalize_annotation_file
          (load_standard_categories [⟨0, "bumper".data⟩])
          ⟨some [⟨1, "door".data⟩], some [⟨some 1, 0⟩], 0⟩
          false).stats.unmapped_categories) ∨
        cnew ∉ [(⟨1, "door".data⟩ : Category)].map Category.id) ∧
    (∀ line o, processLine
        (create_class_id_mapping (some [((0 : Int), "b".data)]) [("a".data, (0 : Int))]).1
        (create_class_id_mapping (some [((0 : Int), "b".data)]) [("a".data, (0 : Int))]).2
        line = .remapped o →
      ∃ nid rest, o = pyjoin (intToStr nid :: rest) ∧
        nid ∈ [("a".data, (0 : Int))].map Prod.snd) ∧
    (∀ line o, processLine
        (create_class_id_mapping (some [((0 : Int), "b".data)]) [("a".data, (0 : Int))]).1
        (create_class_id_mapping (some [((0 : Int), "b".data)]) [("a".data, (0 : Int))]).2
        line = .kept o →
      ∃ p0 rest cid, pysplit o = p0 :: rest ∧ pyParseInt p0 = some cid ∧
        cid ∉ dkeys (create_class_id_mapping (some [((0 : Int), "b".data)])
          [("a".data, (0 : Int))]).1 ∧
        cid ∉ (create_class_id_mapping (some [((0 : Int), "b".data)])
          [("a".data, (0 : Int))]).2 ∧
        ∀ nm, (cid, nm) ∈ [((0 : Int), "b".data)] →
          (cid, nm) ∈ class_id_warnings (some [((0 : Int), "b".data)])
            [("a".data, (0 : Int))])) :=
  ⟨rfl, C1_declared_refs_reconciled [⟨0, "bumper".data⟩]
    ⟨some [⟨1, "door".data⟩], some [⟨some 1, 0⟩], 0⟩ [⟨1, "door".data⟩] rfl
    [("a".data, (0 : Int))] [((0 : Int), "b".data)]⟩

/-- C2 counterexample: on an already-normalized input the second run's
`num_remapped` is 1, not 0.  A dataset declaring exactly the canonical class
"a" = 0 has its file "0 0.5 0.5\n" left byte-identical by the first run
(which counts 1 remap), and the second run — with the mapping rebuilt from
the rewritten manifest — counts the line remapped AGAIN (identity rewrite),
contradicting the claimed zero. -/
theorem C2_counterexample :
    (normalize_label_file (some "0 0.5 0.5\n".data)
      (create_class_id_mapping (some [((0 : Int), "a".data)])
        (load_reference_mapping [((0 : Int), "a".data)])).1
      (create_class_id_mapping (some [((0 : Int), "a".data)])
        (load_reference_mapping [((0 : Int), "a".data)])).2 false).file =
      some "0 0.5 0.5\n".data ∧
    (normalize_label_file
      (normalize_label_file (some "0 0.5 0.5\n".data)
        (create_class_id_mapping (some [((0 : Int), "a".data)])
          (load_reference_mapping [((0 : Int), "a".data)])).1
        (create_class_id_mapping (some [((0 : Int), "a".data)])
          (load_reference_mapping [((0 : Int), "a".data)])).2 false).file
      (create_class_id_mapping
        (normalize_data_yaml ⟨none, none, some [((0 : Int), "a".data)], 1⟩
          (load_reference_mapping [((0 : Int), "a".data)]) false).names
        (load_reference_mapping [((0 : Int), "a".data)])).1
      (create_class_id_mapping
        (normalize_data_yaml ⟨none, none, some [((0 : Int), "a".data)], 1⟩
          (load_reference_mapping [((0 : Int), "a".data)]) false).names
        (load_reference_mapping [((0 : Int), "a".data)])).2
      false).num_remapped = 1 :=
  ⟨by decide, by decide⟩

/-- C2 (amended): a second run changes no file content, but its
normalized/remapped counters are NOT zero — they count identity rewrites.
COCO: the file is unchanged and the second run counts every found category as
normalized again (unmapped report empty).  YOLO: provided the first run's
mapping covered every parsed line (no fail-soft kept lines) and the canonical
names are stripped, damage-free and have distinct IDs, the second label pass
(with the mapping rebuilt from the rewritten manifest) reproduces the file
content exactly, removes nothing, and re-counts every surviving line as
remapped.  The manifest rewrite is byte-stable across repeated runs and
across datasets. -/
theorem C2_second_run_behaviour (L : List Category) (doc : AnnDoc)
    (ref : List (Str × Int))
    (hK : ∀ p ∈ ref, pystrip p.1 = p.1)
    (hD : ∀ p ∈ ref, p.1 ∉ DAMAGE_CLASSES)
    (hN : (dkeys ref).Nodup)
    (names1 : Option (List (Int × Str))) (c : Str) (d0 d1 : ManifestDoc)
    (hcover : ∀ l ∈ pyreadlines c,
      processLine (create_class_id_mapping names1 ref).1
        (create_class_id_mapping names1 ref).2 l ≠ .kept (pystrip l)) :
    (normalize_annotation_file (load_standard_categories L)
      (normalize_annotation_file (load_standard_categories L) doc false).file
      false).file =
      (normalize_annotation_file (load_standard_categories L) doc false).file ∧
    (normalize_annotation_file (load_standard_categories L)
      (normalize_annotation_file (load_standard_categories L) doc false).file
      false).stats.categories_normalized =
      (normalize_annotation_file (load_standard_categories L)
        (normalize_annotation_file (load_standard_categories L) doc false).file
        false).stats.categories_found ∧
    (normalize_annotation_file (load_standard_categories L)
      (normalize_annotation_file (load_standard_categories L) doc false).file
      false).stats.unmapped_categories = [] ∧
    normalize_label_file
        (normalize_label_file (some c) (create_class_id_mapping names1 ref).1
          (create_class_id_mapping names1 ref).2 false).file
        (create_class_id_mapping (normalize_data_yaml d0 ref false).names ref).1
        (create_class_id_mapping (normalize_data_yaml d0 ref false).names ref).2
        false =
      { file := (normalize_label_file (some c)
          (create_class_id_mapping names1 ref).1
          (create_class_id_mapping names1 ref).2 false).file
        num_remapped := (processLines (create_class_id_mapping names1 ref).1
          (create_class_id_mapping names1 ref).2 (pyreadlines c)).1.length
        num_removed := 0 } ∧
    normalize_data_yaml (normalize_data_yaml d0 ref false) ref false =
      normalize_data_yaml d0 ref false ∧
    normalize_data_yaml d0 ref false = normalize_data_yaml d1 ref false := by
  have hcov' : ∀ l ∈ pyreadlines c, ∀ o,
      processLine (create_class_id_mapping names1 ref).1
        (create_class_id_mapping names1 ref).2 l ≠ .kept o :=
    fun l hl => processLine_ne_kept_all (hcover l hl)
  obtain ⟨ha, hb, hc2⟩ := coco_second_run L doc
  refine ⟨ha, hb, hc2, ?_, rfl, rfl⟩
  have hnames : (normalize_data_yaml d0 ref false).names = some (invertRef ref) :=
    rfl
  rw [hnames]
  exact label_file_second_run ref hK hD hN names1 c hcov'

/-- C2 witness: concrete instantiation — canonical mapping {a: 0}, an
already-normalized dataset and the label file "0 0.5 0.5\n"; the second run
reproduces the content, removes nothing, and counts the surviving line
remapped again; the manifest rewrite is byte-stable. -/
theorem C2_second_run_behaviour_witness :
    ((∀ p ∈ [("a".data, (0 : Int))], pystrip p.1 = p.1) ∧
     (∀ p ∈ [("a".data, (0 : Int))], p.1 ∉ DAMAGE_CLASSES) ∧
     (dkeys [("a".data, (0 : Int))]).Nodup ∧
     (∀ l ∈ pyreadlines "0 0.5 0.5\n".data,
       processLine
         (create_class_id_mapping (some [((0 : Int), "a".data)])
           [("a".data, (0 : Int))]).1
         (create_class_id_mapping (some [((0 : Int), "a".data)])
           [("a".data, (0 : Int))]).2 l ≠ .kept (pystrip l))) ∧
    (normalize_label_file
        (normalize_label_file (some "0 0.5 0.5\n".data)
          (create_class_id_mapping (some [((0 : Int), "a".data)])
            [("a".data, (0 : Int))]).1
          (create_class_id_mapping (some [((0 : Int), "a".data)])
            [("a".data, (0 : Int))]).2 false).file
        (create_class_id_mapping
          (normalize_data_yaml ⟨none, none, some [((0 : Int), "a".data)], 1⟩
            [("a".data, (0 : Int))] false).names [("a".data, (0 : Int))]).1
        (create_class_id_mapping
          (normalize_data_yaml ⟨none, none, some [((0 : Int), "a".data)], 1⟩
            [("a".data, (0 : Int))] false).names [("a".data, (0 : Int))]).2
        false =
      { file := (normalize_label_file (some "0 0.5 0.5\n".data)
          (create_class_id_mapping (some [((0 : Int), "a".data)])
            [("a".data, (0 : Int))]).1
          (create_class_id_mapping (some [((0 : Int), "a".data)])
            [("a".data, (0 : Int))]).2 false).file
        num_remapped := (processLines
          (create_class_id_mapping (some [((0 : Int), "a".data)])
            [("a".data, (0 : Int))]).1
          (create_class_id_mapping (some [((0 : Int), "a".data)])
            [("a".data, (0 : Int))]).2 (pyreadlines "0 0.5 0.5\n".data)).1.length
        num_removed := 0 }) :=
  ⟨⟨by decide, by decide, by decide, by decide⟩,
   (C2_second_run_behaviour [⟨0, "bumper".data⟩]
     ⟨some [⟨0, "bumper".data⟩], some [⟨some 0, 0⟩], 0⟩ [("a".data, (0 : Int))]
     (by decide) (by decide) (by decide) (some [((0 : Int), "a".data)])
     "0 0.5 0.5\n".data ⟨none, none, some [((0 : Int), "a".data)], 1⟩
     ⟨some "x".data, none, none, 5⟩ (by decide)).2.2.2.1⟩

end CarPart
